import Mathlib

/-!
# Verification of `dijkstra.py` (Koookadooo/dijkstras_routers)

Shallow embedding of the router shortest-path program and proofs of the
specification claims.  The program is a single Python file; each Lean
definition below translates one Python function (names are kept).
Python exceptions are modelled by `Option` (`none` = the call raises);
Python's unbounded `int` is `Int`; `math.inf` distances live in `ℕ∞`.
-/

namespace Dijkstra

/-! ## Python primitives

`pySplit sep cs` models `str.split(sep)` for a one-character separator:
it keeps empty fields, and the split of the empty string is `[""]`. -/

def pySplit (sep : Char) : List Char → List (List Char)
  | [] => [[]]
  | c :: cs =>
    match pySplit sep cs with
    | [] => [[]]
    | g :: gs => if c = sep then [] :: g :: gs else (c :: g) :: gs

def isDigit (c : Char) : Bool := decide (48 ≤ c.toNat) && decide (c.toNat ≤ 57)

def digitVal (c : Char) : Nat := c.toNat - 48

/-- Value of a nonempty all-decimal-digit string; `none` otherwise. -/
def parseDigits (cs : List Char) : Option Nat :=
  if cs = [] then none
  else if cs.all isDigit then some (cs.foldl (fun a c => 10 * a + digitVal c) 0)
  else none

/-- Models Python `int(text)` on ASCII inputs: surrounding whitespace is
stripped, an optional single sign is allowed, and the rest must be a
nonempty run of decimal digits (underscore separators and non-ASCII
digits are not modelled; no input in this development contains them). -/
def pyIntCore : List Char → Option Int
  | [] => none
  | c :: rest =>
    if c = '-' then (parseDigits rest).map (fun n => -(n : Int))
    else if c = '+' then (parseDigits rest).map (fun n => (n : Int))
    else (parseDigits (c :: rest)).map (fun n => (n : Int))

def pyInt (cs : List Char) : Option Int :=
  pyIntCore (((cs.dropWhile Char.isWhitespace).reverse.dropWhile Char.isWhitespace).reverse)

/-- Value of a nonempty all-binary-digit string, as used by `int(text, 2)`
on the mask strings the program builds. -/
def parseBin (cs : List Char) : Option Nat :=
  if cs = [] then none
  else if cs.all (fun c => c = '0' || c = '1') then
    some (cs.foldl (fun a c => 2 * a + digitVal c) 0)
  else none

/-- Python `str` of a natural number (decimal, no sign). -/
def natStrAux : Nat → Nat → List Char
  | 0, _ => []
  | fuel + 1, n =>
    if n = 0 then [] else natStrAux fuel (n / 10) ++ [Char.ofNat (48 + n % 10)]

def natStr (n : Nat) : List Char :=
  if n = 0 then ['0'] else natStrAux (n + 1) n

/-- Python `str` of an integer. -/
def pyStrInt (i : Int) : List Char :=
  if i < 0 then '-' :: natStr i.natAbs else natStr i.natAbs

/-- Python `x >> k` on an unbounded integer: floor division by `2 ^ k`. -/
def pyShr (x : Int) (k : Nat) : Int := Int.fdiv x (2 ^ k)

/-- Python `x << k` on an unbounded integer: multiplication by `2 ^ k`. -/
def pyShl (x : Int) (k : Nat) : Int := x * 2 ^ k

/-! ## The address codec (`ipv4_to_value`, `value_to_ipv4`,
`get_subnet_mask_value`, `ips_same_subnet`) -/

/-- Model of `ipv4_to_value`: `value |= int(addr.split('.')[i]) << (8*(3-i))` for
`i in range(4)`.  `none` models the `IndexError` (fewer than four
fields) or `ValueError` (unparseable field) the Python loop can raise. -/
def ipv4_to_value (ipv4_addr : String) : Option Int :=
  (List.range 4).foldlM
    (fun value i => do
      let part ← (pySplit '.' ipv4_addr.data)[i]?
      let oct ← pyInt part
      pure (Int.lor value (pyShl oct (8 * (3 - i)))))
    0

/-- Model of `value_to_ipv4`: the four bytes `(addr >> (8*(3-i))) & 0xff`,
rendered in decimal and joined with dots. -/
def value_to_ipv4 (addr : Int) : String :=
  ⟨List.intercalate ['.']
    ((List.range 4).map (fun i => pyStrInt (Int.land (pyShr addr (8 * (3 - i))) 255)))⟩

/-- Model of `get_subnet_mask_value`: parse the part after the `'/'`, build the
string `'1' * value + '0' * (32 - value)` (Python string repetition is
empty for a negative count) and read it in base 2. -/
def get_subnet_mask_value (slash : String) : Option Int := do
  let part ← (pySplit '/' slash.data)[1]?
  let value ← pyInt part
  let mask := List.replicate value.toNat '1' ++ List.replicate (32 - value).toNat '0'
  let m ← parseBin mask
  pure (m : Int)

/-- Model of `ips_same_subnet`: compare the two addresses under the mask. -/
def ips_same_subnet (ip1 ip2 slash : String) : Option Bool := do
  let v1 ← ipv4_to_value ip1
  let v2 ← ipv4_to_value ip2
  let mask ← get_subnet_mask_value slash
  pure (decide (Int.land v1 mask = Int.land v2 mask))

/-! ## The network model

A network is the JSON routers dictionary: keys are router IP strings in
insertion order (Python dicts preserve it), values carry the
`connections` sub-dictionary and the router's own `netmask`.  The
`if_count` / `if_prefix` fields of the data file are never read by the
program and are omitted. -/

structure Link where
  netmask : String
  interface : String
  ad : Nat

structure Router where
  connections : List (String × Link)
  netmask : String

abbrev Net := List (String × Router)

def keys (net : Net) : List String := net.map Prod.fst

/-- Model of `find_router_for_ip`: scan the routers in order, return the first one
whose subnet contains `ip` (inner `Option`), or `none` if no router
matches — the Python function returns `None`, it does not raise.  The
outer `Option` models an exception inside `ips_same_subnet`. -/
def find_router_for_ip : Net → String → Option (Option String)
  | [], _ => some none
  | (r, rt) :: rest, ip => do
    let b ← ips_same_subnet ip r rt.netmask
    if b then pure (some r) else find_router_for_ip rest ip

/-! ## The shortest-path engine (`get_shortest_path`)

Working state: `dist` is the `distances` dict (`⊤` = `math.inf`),
`prev` the `previous` dict, `unvisited` the unvisited set.  A Python
`set` iterates in an unspecified (hash-dependent) order; the embedding
fixes the deterministic order in which routers were inserted, which is
one admissible set order.  `min(unvisited, key=...)` keeps the first
element whose key is strictly smaller than the current best. -/

def minBy (dist : String → ℕ∞) (x : String) (xs : List String) : String :=
  xs.foldl (fun best r => if dist r < dist best then r else best) x

/-- The body of `for neighbor, dst in routers[current_router]['connections'].items()`:
skip neighbors not in `unvisited`, otherwise relax through `current`. -/
def relaxStep (current : String) (unvisited : List String)
    (dp : (String → ℕ∞) × (String → Option String)) (nb : String × Link) :
    (String → ℕ∞) × (String → Option String) :=
  if nb.1 ∈ unvisited then
    let nd := dp.1 current + (nb.2.ad : ℕ∞)
    if nd < dp.1 nb.1 then
      (fun r => if r = nb.1 then nd else dp.1 r,
       fun r => if r = nb.1 then some current else dp.2 r)
    else dp
  else dp

def relax (current : String) (conns : List (String × Link)) (unvisited : List String)
    (dp : (String → ℕ∞) × (String → Option String)) :
    (String → ℕ∞) × (String → Option String) :=
  conns.foldl (relaxStep current unvisited) dp

/-- Connections of `current` in the dict; `current` is always a key of the dict when
this is read (`current ∈ unvisited ⊆ keys net`), so the `[]` default is
never taken. -/
def connsOf (net : Net) (current : String) : List (String × Link) :=
  ((net.lookup current).map Router.connections).getD []

/-- The embedding of the `while unvisited:` loop.  One element is removed per iteration
unless the loop breaks at the destination, so fuel `(keys net).length`
makes the embedding agree with the Python loop (proved below). -/
def dijkstraLoop (net : Net) (dest : Option String) :
    Nat → List String → (String → ℕ∞) → (String → Option String) →
    List String × (String → ℕ∞) × (String → Option String)
  | 0, unvisited, dist, prev => (unvisited, dist, prev)
  | fuel + 1, unvisited, dist, prev =>
    match unvisited with
    | [] => ([], dist, prev)
    | u :: us =>
      let current := minBy dist u us
      if some current = dest then (unvisited, dist, prev)
      else
        let unvisited' := (u :: us).erase current
        let dp := relax current (connsOf net current) unvisited' (dist, prev)
        dijkstraLoop net dest fuel unvisited' dp.1 dp.2

/-- The reconstruction loop: walk `prev` backwards from the destination,
collecting routers until a node with no predecessor; if
`dest = src` the loop breaks before collecting anything.  `none` models
a walk that does not terminate within the fuel (never happens: the
`prev` chains the engine builds are acyclic, proved below). -/
def walkBack (src dest : Option String) (prev : String → Option String) :
    Nat → Option String → Option (List String)
  | 0, _ => none
  | fuel + 1, cur =>
    match cur with
    | none => some []
    | some c =>
      if dest = src then some []
      else do
        let rest ← walkBack src dest prev fuel (prev c)
        pure (c :: rest)

/-- Model of `get_shortest_path`: run the engine from the initial state
(`distances[src] = 0`, all others `inf` — when `src` is `None` the
Python dict entry `distances[None] = 0` is attached to no router and is
never read, so every router starts at `inf`), then reconstruct and
reverse. -/
def get_shortest_path (net : Net) (src dest : Option String) : Option (List String) :=
  let dist0 : String → ℕ∞ := fun r => if some r = src then 0 else ⊤
  let s := dijkstraLoop net dest (keys net).length (keys net) dist0 (fun _ => none)
  (walkBack src dest s.2.2 ((keys net).length + 2) dest).map List.reverse

/-- Model of `dijkstras_shortest_path`: resolve both host IPs to routers (possibly
`None`) and run the engine. -/
def dijkstras_shortest_path (net : Net) (src_ip dest_ip : String) : Option (List String) := do
  let src ← find_router_for_ip net src_ip
  let dest ← find_router_for_ip net dest_ip
  get_shortest_path net src dest

/-! ## Graph-theoretic vocabulary for the specification

`edgeWeight net a b` is the weight of the directed link `a → b`:
the `ad` field of the entry for `b` in `a`'s connections. -/

def edgeWeight (net : Net) (a b : String) : Option Nat :=
  (net.lookup a).bind (fun rt => (rt.connections.lookup b).map Link.ad)

/-- Relation `Reach net src n w`: there is a directed path from `src` to `n` of
total weight `w` (weights are finite by construction). -/
inductive Reach (net : Net) (src : String) : String → ℕ∞ → Prop
  | refl : Reach net src src 0
  | step {a b : String} {w : ℕ∞} {wt : Nat} :
      Reach net src a w → edgeWeight net a b = some wt → Reach net src b (w + (wt : ℕ∞))

def Reachable (net : Net) (src n : String) : Prop := ∃ w, Reach net src n w

/-- Predicate `IsChain net a l`: starting from `a`, each consecutive pair of
`a :: l` is a directed link of the network. -/
def IsChain (net : Net) : String → List String → Prop
  | _, [] => True
  | a, b :: rest => (∃ wt, edgeWeight net a b = some wt) ∧ IsChain net b rest

/-- Total weight of the chain `a :: l` (missing links count `⊤`). -/
def chainWeight (net : Net) : String → List String → ℕ∞
  | _, [] => 0
  | a, b :: rest =>
    (match edgeWeight net a b with
     | some wt => (wt : ℕ∞)
     | none => ⊤) + chainWeight net b rest

/-- Well-formed network: the routers dictionary and each `connections`
dictionary have pairwise-distinct keys (automatic for Python dicts). -/
def WFNet (net : Net) : Prop :=
  (keys net).Nodup ∧ ∀ p ∈ net, ((p : String × Router).2.connections.map Prod.fst).Nodup

/-- Canonical dotted-quad strings: four decimal octets below 256,
each printed the way Python's `str` prints a number (no leading zeros,
no signs, no spaces). -/
def Canonical (s : String) : Prop :=
  ∃ a b c d : Nat, a < 256 ∧ b < 256 ∧ c < 256 ∧ d < 256 ∧
    s.data = natStr a ++ '.' :: (natStr b ++ '.' :: (natStr c ++ '.' :: natStr d))

/-- The slash-notation string `"/n"`. -/
def slashStr (n : Nat) : String := ⟨'/' :: natStr n⟩

/-! ## State-threaded variants

Python passes the routers dictionary by reference; the functions below
thread it through every phase of the computation and hand it back, so
that its preservation is a theorem rather than a typing accident. -/

def find_router_for_ip_st : Net → String → Option (Option String) × Net
  | [], _ => (some none, [])
  | (r, rt) :: rest, ip =>
    match ips_same_subnet ip r rt.netmask with
    | none => (none, (r, rt) :: rest)
    | some b =>
      if b then (some (some r), (r, rt) :: rest)
      else
        let res := find_router_for_ip_st rest ip
        (res.1, (r, rt) :: res.2)

def dijkstraLoop_st (dest : Option String) :
    Nat → Net → List String → (String → ℕ∞) → (String → Option String) →
    Net × List String × (String → ℕ∞) × (String → Option String)
  | 0, net, unvisited, dist, prev => (net, unvisited, dist, prev)
  | fuel + 1, net, unvisited, dist, prev =>
    match unvisited with
    | [] => (net, [], dist, prev)
    | u :: us =>
      let current := minBy dist u us
      if some current = dest then (net, unvisited, dist, prev)
      else
        let unvisited' := (u :: us).erase current
        let dp := relax current (connsOf net current) unvisited' (dist, prev)
        dijkstraLoop_st dest fuel net unvisited' dp.1 dp.2

def get_shortest_path_st (net : Net) (src dest : Option String) :
    Option (List String) × Net :=
  let dist0 : String → ℕ∞ := fun r => if some r = src then 0 else ⊤
  let s := dijkstraLoop_st dest (keys net).length net (keys net) dist0 (fun _ => none)
  ((walkBack src dest s.2.2.2 ((keys s.1).length + 2) dest).map List.reverse, s.1)

def dijkstras_shortest_path_st (net : Net) (src_ip dest_ip : String) :
    Option (List String) × Net :=
  let fs := find_router_for_ip_st net src_ip
  match fs.1 with
  | none => (none, fs.2)
  | some src =>
    let fd := find_router_for_ip_st fs.2 dest_ip
    match fd.1 with
    | none => (none, fd.2)
    | some dest =>
      let gp := get_shortest_path_st fd.2 src dest
      (gp.1, gp.2)

/-! ## Concrete topologies used as test inputs

`exNet` is the three-router topology of the specification: routers `A`,
`B`, `C` with symmetric links `A–B` of weight 10, `B–C` of weight 5 and
`A–C` of weight 20, each router serving a `/24` subnet. -/

def lk (ad : Nat) : Link := ⟨"/24", "en0", ad⟩

def exNet : Net :=
  [ ("10.0.0.1", ⟨[("10.0.1.1", lk 10), ("10.0.2.1", lk 20)], "/24"⟩),
    ("10.0.1.1", ⟨[("10.0.0.1", lk 10), ("10.0.2.1", lk 5)], "/24"⟩),
    ("10.0.2.1", ⟨[("10.0.0.1", lk 20), ("10.0.1.1", lk 5)], "/24"⟩) ]

/-- Two routers with no links at all: two connected components. -/
def discNet : Net :=
  [ ("10.0.0.1", ⟨[], "/24"⟩), ("10.1.0.1", ⟨[], "/24"⟩) ]

/-- The loop invariant of the shortest-path engine, over the working
state (`u` = unvisited, `d` = distances, `p` = predecessors); the
"visited" routers are the keys outside `u`.  `rank` is a termination
certificate for the predecessor chains: every predecessor was visited
strictly earlier. -/
structure Inv (net : Net) (src : String) (u : List String)
    (d : String → ℕ∞) (p : String → Option String) : Prop where
  usub : ∀ x ∈ u, x ∈ keys net
  unodup : u.Nodup
  src0 : d src = 0
  notkey : ∀ x, x ∉ keys net → x ≠ src → d x = ⊤
  sound : ∀ x, d x ≠ ⊤ → Reach net src x (d x)
  final : ∀ v ∈ keys net, v ∉ u → ∀ w, Reach net src v w → d v ≤ w
  frontier : ∀ x ∈ u, ∀ v ∈ keys net, v ∉ u → ∀ wt : Nat,
    edgeWeight net v x = some wt → d x ≤ d v + (wt : ℕ∞)
  mono : ∀ v ∈ keys net, v ∉ u → ∀ x ∈ u, d v ≤ d x
  prevSrc : p src = none
  prevInv : ∀ n c, p n = some c → c ∈ keys net ∧ c ∉ u ∧
    ∃ wt : Nat, edgeWeight net c n = some wt ∧ d n = d c + (wt : ℕ∞) ∧ d c ≠ ⊤
  prevNone : ∀ n, d n ≠ ⊤ → p n = none → n = src
  rank : ∃ rk : String → Nat, (∀ x ∈ u, rk x = (keys net).length) ∧
    (∀ c ∈ keys net, c ∉ u → rk c < (keys net).length - u.length) ∧
    (∀ n c, p n = some c → rk c < rk n)

/-! # Theorems

## Decimal printing and parsing infrastructure -/

theorem digit_spec : ∀ r : Nat, r < 10 →
    isDigit (Char.ofNat (48 + r)) = true ∧ digitVal (Char.ofNat (48 + r)) = r := by
  decide

theorem toNat_ne {c d : Char} (h : c.toNat ≠ d.toNat) : c ≠ d :=
  fun e => h (congrArg Char.toNat e)

theorem isDigit_toNat {c : Char} (h : isDigit c = true) : 48 ≤ c.toNat ∧ c.toNat ≤ 57 := by
  simpa [isDigit] using h

theorem isDigit_ne_low {c : Char} (h : isDigit c = true) {d : Char}
    (hd : d.toNat < 48) : c ≠ d := by
  obtain ⟨h1, _⟩ := isDigit_toNat h
  exact toNat_ne (by omega)

theorem isDigit_ne {c : Char} (h : isDigit c = true) :
    c.isWhitespace = false ∧ c ≠ '-' ∧ c ≠ '+' ∧ c ≠ '.' ∧ c ≠ '/' := by
  refine ⟨?_, isDigit_ne_low h (by decide), isDigit_ne_low h (by decide),
    isDigit_ne_low h (by decide), isDigit_ne_low h (by decide)⟩
  simp only [Char.isWhitespace, Bool.or_eq_false_iff, decide_eq_false_iff_not]
  exact ⟨⟨⟨isDigit_ne_low h (by decide), isDigit_ne_low h (by decide)⟩,
    isDigit_ne_low h (by decide)⟩, isDigit_ne_low h (by decide)⟩

theorem natStrAux_digits : ∀ fuel n c, c ∈ natStrAux fuel n → isDigit c = true := by
  intro fuel
  induction fuel with
  | zero => intro n c hc; simp [natStrAux] at hc
  | succ fuel ih =>
    intro n c hc
    simp only [natStrAux] at hc
    by_cases h : n = 0
    · simp [h] at hc
    · rw [if_neg h] at hc
      rcases List.mem_append.mp hc with h1 | h1
      · exact ih _ _ h1
      · rw [List.mem_singleton.mp h1]
        exact (digit_spec (n % 10) (by omega)).1

theorem natStrAux_foldl : ∀ fuel n, n ≤ fuel →
    (natStrAux fuel n).foldl (fun a c => 10 * a + digitVal c) 0 = n := by
  intro fuel
  induction fuel with
  | zero => intro n hn; simp [natStrAux, Nat.le_zero.mp hn]
  | succ fuel ih =>
    intro n hn
    by_cases h : n = 0
    · simp [natStrAux, h]
    · have hdiv : n / 10 ≤ fuel := by
        have := Nat.div_lt_self (Nat.pos_of_ne_zero h) (by omega : 1 < 10)
        omega
      simp only [natStrAux, if_neg h]
      rw [List.foldl_append, ih _ hdiv]
      simp only [List.foldl_cons, List.foldl_nil]
      rw [(digit_spec (n % 10) (by omega)).2]
      omega

theorem natStr_digits (n : Nat) : ∀ c ∈ natStr n, isDigit c = true := by
  intro c hc
  unfold natStr at hc
  by_cases h : n = 0
  · rw [if_pos h] at hc
    rw [List.mem_singleton.mp hc]
    decide
  · rw [if_neg h] at hc
    exact natStrAux_digits _ _ _ hc

theorem natStr_ne_nil (n : Nat) : natStr n ≠ [] := by
  unfold natStr
  by_cases h : n = 0
  · simp [h]
  · rw [if_neg h]
    show natStrAux (n + 1) n ≠ []
    simp only [natStrAux, if_neg h]
    simp

theorem parseDigits_natStr (n : Nat) : parseDigits (natStr n) = some n := by
  unfold parseDigits
  rw [if_neg (natStr_ne_nil n), if_pos (List.all_eq_true.mpr (natStr_digits n))]
  unfold natStr
  by_cases h : n = 0
  · simp [h, digitVal]
  · rw [if_neg h, natStrAux_foldl (n + 1) n (by omega)]

theorem dropWhile_digits {l : List Char} (h : ∀ c ∈ l, isDigit c = true) :
    l.dropWhile Char.isWhitespace = l := by
  cases l with
  | nil => rfl
  | cons c rest =>
    rw [List.dropWhile_cons, if_neg]
    rw [(isDigit_ne (h c (by simp))).1]
    simp

theorem pyInt_digits {l : List Char} (hne : l ≠ []) (h : ∀ c ∈ l, isDigit c = true) :
    pyInt l = (parseDigits l).map (fun n => (n : Int)) := by
  unfold pyInt
  rw [dropWhile_digits h,
    dropWhile_digits (fun c hc => h c (List.mem_reverse.mp hc)),
    List.reverse_reverse]
  cases hl : l with
  | nil => exact absurd hl hne
  | cons c rest =>
    have hd : isDigit c = true := h c (by rw [hl]; simp)
    obtain ⟨_, hm, hp, _, _⟩ := isDigit_ne hd
    simp only [pyIntCore]
    rw [if_neg hm, if_neg hp]

theorem pyInt_natStr (n : Nat) : pyInt (natStr n) = some (n : Int) := by
  rw [pyInt_digits (natStr_ne_nil n) (natStr_digits n), parseDigits_natStr]
  rfl

/-! ## Splitting lemmas -/

theorem pySplit_ne_nil (sep : Char) (l : List Char) : pySplit sep l ≠ [] := by
  cases l with
  | nil => simp [pySplit]
  | cons c cs =>
    simp only [pySplit]
    cases h : pySplit sep cs with
    | nil => simp
    | cons g gs =>
      by_cases hc : c = sep <;> simp [hc]

theorem pySplit_no_sep {sep : Char} {l : List Char} (h : ∀ c ∈ l, c ≠ sep) :
    pySplit sep l = [l] := by
  induction l with
  | nil => rfl
  | cons c cs ih =>
    have hcs := ih (fun x hx => h x (by simp [hx]))
    simp only [pySplit, hcs]
    rw [if_neg (h c (by simp))]

theorem pySplit_sep_cons (sep : Char) (l : List Char) :
    pySplit sep (sep :: l) = [] :: pySplit sep l := by
  simp only [pySplit]
  cases h : pySplit sep l with
  | nil => exact absurd h (pySplit_ne_nil sep l)
  | cons g gs => simp

theorem pySplit_append {sep : Char} {l1 : List Char} (h : ∀ c ∈ l1, c ≠ sep)
    (l2 : List Char) : pySplit sep (l1 ++ sep :: l2) = l1 :: pySplit sep l2 := by
  induction l1 with
  | nil => simpa using pySplit_sep_cons sep l2
  | cons c cs ih =>
    have hih := ih (fun x hx => h x (by simp [hx]))
    rw [show (c :: cs) ++ sep :: l2 = c :: (cs ++ sep :: l2) from rfl]
    simp only [pySplit]
    rw [hih]
    dsimp only
    rw [if_neg (h c (by simp))]

/-! ## The `ipv4_to_value` fold, unrolled -/

theorem ipv4_to_value_parts {s : String} {p0 p1 p2 p3 : List Char}
    {rest : List (List Char)}
    (h : pySplit '.' s.data = p0 :: p1 :: p2 :: p3 :: rest) :
    ipv4_to_value s =
      (pyInt p0).bind (fun o0 =>
        (pyInt p1).bind (fun o1 =>
          (pyInt p2).bind (fun o2 =>
            (pyInt p3).map (fun o3 =>
              Int.lor (Int.lor (Int.lor (Int.lor 0 (pyShl o0 24)) (pyShl o1 16))
                (pyShl o2 8)) (pyShl o3 0))))) := by
  have e0 : (p0 :: p1 :: p2 :: p3 :: rest)[0]? = some p0 := by simp
  have e1 : (p0 :: p1 :: p2 :: p3 :: rest)[1]? = some p1 := by simp
  have e2 : (p0 :: p1 :: p2 :: p3 :: rest)[2]? = some p2 := by simp
  have e3 : (p0 :: p1 :: p2 :: p3 :: rest)[3]? = some p3 := by simp
  unfold ipv4_to_value
  rw [show List.range 4 = [0, 1, 2, 3] from rfl]
  simp only [List.foldlM, h, e0, e1, e2, e3, Option.bind_eq_bind, Option.some_bind,
    Option.pure_def]
  cases pyInt p0 with
  | none => rfl
  | some o0 =>
    simp only [Option.some_bind]
    cases pyInt p1 with
    | none => rfl
    | some o1 =>
      simp only [Option.some_bind]
      cases pyInt p2 with
      | none => rfl
      | some o2 =>
        simp only [Option.some_bind]
        cases pyInt p3 with
        | none => rfl
        | some o3 => rfl

/-! ## Assembling and splitting 32-bit values -/

theorem int_lor_ofNat (a b : Nat) : Int.lor (a : Int) (b : Int) = ((a ||| b : Nat) : Int) := rfl

theorem int_land_ofNat (a b : Nat) : Int.land (a : Int) (b : Int) = ((a &&& b : Nat) : Int) := rfl

theorem int_fdiv_ofNat (a b : Nat) : Int.fdiv (a : Int) (b : Int) = ((a / b : Nat) : Int) := by
  cases a with
  | zero => rw [Nat.zero_div]; rfl
  | succ a => rfl

theorem pyShl_ofNat (m k : Nat) : pyShl (m : Int) k = ((m * 2 ^ k : Nat) : Int) := by
  unfold pyShl
  push_cast
  ring

theorem octets_lor {a b c d : Nat} (hb : b < 256) (hc : c < 256) (hd : d < 256) :
    ((((0 ||| a * 2 ^ 24) ||| b * 2 ^ 16) ||| c * 2 ^ 8) ||| d * 2 ^ 0)
      = a * 2 ^ 24 + b * 2 ^ 16 + c * 2 ^ 8 + d := by
  have p8 : (2 : Nat) ^ 8 = 256 := by norm_num
  have p16 : (2 : Nat) ^ 16 = 65536 := by norm_num
  have p24 : (2 : Nat) ^ 24 = 16777216 := by norm_num
  have h1 : (0 ||| a * 2 ^ 24) = a * 2 ^ 24 := Nat.zero_or _
  have hb' : b * 2 ^ 16 < 2 ^ 24 := by omega
  have h2 : a * 2 ^ 24 ||| b * 2 ^ 16 = a * 2 ^ 24 + b * 2 ^ 16 := by
    rw [show a * 2 ^ 24 = 2 ^ 24 * a from by ring]
    exact (Nat.mul_add_lt_is_or hb' a).symm
  have hc' : c * 2 ^ 8 < 2 ^ 16 := by omega
  have h3 : (a * 2 ^ 24 + b * 2 ^ 16) ||| c * 2 ^ 8
      = a * 2 ^ 24 + b * 2 ^ 16 + c * 2 ^ 8 := by
    rw [show a * 2 ^ 24 + b * 2 ^ 16 = 2 ^ 16 * (a * 2 ^ 8 + b) from by ring]
    rw [(Nat.mul_add_lt_is_or hc' (a * 2 ^ 8 + b)).symm]
  have hd' : d * 2 ^ 0 < 2 ^ 8 := by omega
  have h4 : (a * 2 ^ 24 + b * 2 ^ 16 + c * 2 ^ 8) ||| d * 2 ^ 0
      = a * 2 ^ 24 + b * 2 ^ 16 + c * 2 ^ 8 + d * 2 ^ 0 := by
    rw [show a * 2 ^ 24 + b * 2 ^ 16 + c * 2 ^ 8
        = 2 ^ 8 * (a * 2 ^ 16 + b * 2 ^ 8 + c) from by ring]
    rw [(Nat.mul_add_lt_is_or hd' (a * 2 ^ 16 + b * 2 ^ 8 + c)).symm]
  rw [h1, h2, h3, h4]
  omega

theorem ipv4_to_value_octets {s : String} {a b c d : Nat}
    (hb : b < 256) (hc : c < 256) (hd : d < 256)
    (hs : s.data = natStr a ++ '.' :: (natStr b ++ '.' :: (natStr c ++ '.' :: natStr d))) :
    ipv4_to_value s = some ((a * 2 ^ 24 + b * 2 ^ 16 + c * 2 ^ 8 + d : Nat) : Int) := by
  have nosep : ∀ m : Nat, ∀ x ∈ natStr m, x ≠ '.' :=
    fun m x hx => (isDigit_ne (natStr_digits m x hx)).2.2.2.1
  have hsplit : pySplit '.' s.data = [natStr a, natStr b, natStr c, natStr d] := by
    rw [hs, pySplit_append (nosep a), pySplit_append (nosep b), pySplit_append (nosep c),
      pySplit_no_sep (nosep d)]
  rw [ipv4_to_value_parts hsplit, pyInt_natStr, pyInt_natStr, pyInt_natStr, pyInt_natStr]
  simp only [Option.some_bind, Option.map_some']
  rw [show (0 : Int) = ((0 : Nat) : Int) from rfl,
    pyShl_ofNat, pyShl_ofNat, pyShl_ofNat, pyShl_ofNat,
    int_lor_ofNat, int_lor_ofNat, int_lor_ofNat, int_lor_ofNat,
    octets_lor hb hc hd]

theorem pyStrInt_ofNat (m : Nat) : pyStrInt (m : Int) = natStr m := by
  unfold pyStrInt
  rw [if_neg (by omega), Int.natAbs_ofNat]

theorem shr_land_byte (v k : Nat) :
    Int.land (pyShr (v : Int) k) 255 = ((v / 2 ^ k % 256 : Nat) : Int) := by
  unfold pyShr
  rw [show ((2 : Int) ^ k) = ((2 ^ k : Nat) : Int) from by push_cast; ring,
    int_fdiv_ofNat,
    show (255 : Int) = ((255 : Nat) : Int) from rfl,
    int_land_ofNat]
  congr 1
  rw [show (255 : Nat) = 2 ^ 8 - 1 from rfl]
  exact Nat.and_pow_two_sub_one_eq_mod _ 8

theorem value_to_ipv4_data (v : Nat) :
    (value_to_ipv4 (v : Int)).data =
      natStr (v / 2 ^ 24 % 256) ++ '.' :: (natStr (v / 2 ^ 16 % 256) ++ '.' ::
        (natStr (v / 2 ^ 8 % 256) ++ '.' :: natStr (v / 2 ^ 0 % 256))) := by
  unfold value_to_ipv4
  rw [show List.range 4 = [0, 1, 2, 3] from rfl]
  simp only [List.map_cons, List.map_nil]
  rw [show 8 * (3 - 0) = 24 from rfl, show 8 * (3 - 1) = 16 from rfl,
    show 8 * (3 - 2) = 8 from rfl, show 8 * (3 - 3) = 0 from rfl]
  rw [shr_land_byte, shr_land_byte, shr_land_byte, shr_land_byte,
    pyStrInt_ofNat, pyStrInt_ofNat, pyStrInt_ofNat, pyStrInt_ofNat]
  simp [List.intercalate, List.intersperse]

/-- Claim C5 — The address codec round-trips exactly: parsing a canonical
dotted-quad string and re-printing gives the same string back, and
printing any 32-bit value and re-parsing gives the same value back. -/
theorem claim_C5_roundtrip :
    (∀ s : String, Canonical s → ∃ v : Int, ipv4_to_value s = some v ∧ value_to_ipv4 v = s) ∧
    (∀ v : Nat, v < 2 ^ 32 → ipv4_to_value (value_to_ipv4 (v : Int)) = some (v : Int)) := by
  have p8 : (2 : Nat) ^ 8 = 256 := by norm_num
  have p16 : (2 : Nat) ^ 16 = 65536 := by norm_num
  have p24 : (2 : Nat) ^ 24 = 16777216 := by norm_num
  have p32 : (2 : Nat) ^ 32 = 4294967296 := by norm_num
  constructor
  · intro s hs
    obtain ⟨a, b, c, d, ha, hb, hc, hd, hdata⟩ := hs
    refine ⟨_, ipv4_to_value_octets hb hc hd hdata, ?_⟩
    have e24 : (a * 2 ^ 24 + b * 2 ^ 16 + c * 2 ^ 8 + d) / 2 ^ 24 % 256 = a := by omega
    have e16 : (a * 2 ^ 24 + b * 2 ^ 16 + c * 2 ^ 8 + d) / 2 ^ 16 % 256 = b := by omega
    have e8 : (a * 2 ^ 24 + b * 2 ^ 16 + c * 2 ^ 8 + d) / 2 ^ 8 % 256 = c := by omega
    have e0 : (a * 2 ^ 24 + b * 2 ^ 16 + c * 2 ^ 8 + d) / 2 ^ 0 % 256 = d := by
      rw [pow_zero, Nat.div_one]; omega
    apply String.ext
    rw [value_to_ipv4_data, e24, e16, e8, e0, hdata]
  · intro v hv
    have h16 : v / 2 ^ 16 % 256 < 256 := Nat.mod_lt _ (by norm_num)
    have h8 : v / 2 ^ 8 % 256 < 256 := Nat.mod_lt _ (by norm_num)
    have h0 : v / 2 ^ 0 % 256 < 256 := Nat.mod_lt _ (by norm_num)
    rw [ipv4_to_value_octets h16 h8 h0 (value_to_ipv4_data v)]
    congr 1
    have : v / 2 ^ 24 % 256 * 2 ^ 24 + v / 2 ^ 16 % 256 * 2 ^ 16
        + v / 2 ^ 8 % 256 * 2 ^ 8 + v / 2 ^ 0 % 256 = v := by omega
    rw [this]

theorem claim_C5_roundtrip_witness :
    (∃ v : Int, ipv4_to_value "10.0.0.1" = some v ∧ value_to_ipv4 v = "10.0.0.1") ∧
    ipv4_to_value (value_to_ipv4 ((167772161 : Nat) : Int)) = some ((167772161 : Nat) : Int) :=
  ⟨claim_C5_roundtrip.1 "10.0.0.1" ⟨10, 0, 0, 1, by norm_num, by norm_num, by norm_num,
      by norm_num, by decide⟩,
    claim_C5_roundtrip.2 167772161 (by norm_num)⟩

/-! ## What `ipv4_to_value` accepts (claim C6) -/

theorem ipv4_to_value_short {s : String} (h : (pySplit '.' s.data).length < 4) :
    ipv4_to_value s = none := by
  unfold ipv4_to_value
  rw [show List.range 4 = [0, 1, 2, 3] from rfl]
  rcases hl : pySplit '.' s.data with _ | ⟨p0, _ | ⟨p1, _ | ⟨p2, _ | ⟨p3, rest⟩⟩⟩⟩
  · simp [List.foldlM]
  · cases hp : pyInt p0 <;> simp [List.foldlM, hp]
  · cases hp : pyInt p0 <;> cases hq : pyInt p1 <;> simp [List.foldlM, hp, hq]
  · cases hp : pyInt p0 <;> cases hq : pyInt p1 <;> cases hr : pyInt p2 <;>
      simp [List.foldlM, hp, hq, hr]
  · rw [hl] at h
    simp at h
    omega

/-- Claim C6, amended — `ipv4_to_value` has no format check: it succeeds
exactly when the dot-split of the text has at least four fields and each
of the first four parses as a (possibly signed, possibly out-of-range)
integer; otherwise it raises `IndexError`/`ValueError`, never a
`FormatError`. -/
theorem claim_C6_amended (s : String) :
    (∃ v, ipv4_to_value s = some v) ↔
      ∀ i < 4, ∃ p, (pySplit '.' s.data)[i]? = some p ∧ ∃ n, pyInt p = some n := by
  rcases hl : pySplit '.' s.data with _ | ⟨p0, _ | ⟨p1, _ | ⟨p2, _ | ⟨p3, rest⟩⟩⟩⟩
  · rw [ipv4_to_value_short (by rw [hl]; simp)]
    constructor
    · rintro ⟨v, hv⟩; cases hv
    · intro hok
      obtain ⟨p, hp, -⟩ := hok 0 (by norm_num)
      simp at hp
  · rw [ipv4_to_value_short (by rw [hl]; simp)]
    constructor
    · rintro ⟨v, hv⟩; cases hv
    · intro hok
      obtain ⟨p, hp, -⟩ := hok 1 (by norm_num)
      simp at hp
  · rw [ipv4_to_value_short (by rw [hl]; simp)]
    constructor
    · rintro ⟨v, hv⟩; cases hv
    · intro hok
      obtain ⟨p, hp, -⟩ := hok 2 (by norm_num)
      simp at hp
  · rw [ipv4_to_value_short (by rw [hl]; simp)]
    constructor
    · rintro ⟨v, hv⟩; cases hv
    · intro hok
      obtain ⟨p, hp, -⟩ := hok 3 (by norm_num)
      simp at hp
  · rw [ipv4_to_value_parts hl]
    constructor
    · rintro ⟨v, hv⟩
      simp only [Option.bind_eq_some, Option.map_eq_some'] at hv
      obtain ⟨o0, h0, o1, h1, o2, h2, o3, h3, -⟩ := hv
      intro i hi
      interval_cases i
      · exact ⟨p0, by simp [hl], o0, h0⟩
      · exact ⟨p1, by simp [hl], o1, h1⟩
      · exact ⟨p2, by simp [hl], o2, h2⟩
      · exact ⟨p3, by simp [hl], o3, h3⟩
    · intro hok
      obtain ⟨q0, e0, n0, h0⟩ := hok 0 (by norm_num)
      obtain ⟨q1, e1, n1, h1⟩ := hok 1 (by norm_num)
      obtain ⟨q2, e2, n2, h2⟩ := hok 2 (by norm_num)
      obtain ⟨q3, e3, n3, h3⟩ := hok 3 (by norm_num)
      have h0' : pyInt p0 = some n0 := by
        rw [show (p0 :: p1 :: p2 :: p3 :: rest)[0]? = some p0 from by simp] at e0
        injection e0 with e
        rw [e]
        exact h0
      have h1' : pyInt p1 = some n1 := by
        rw [show (p0 :: p1 :: p2 :: p3 :: rest)[1]? = some p1 from by simp] at e1
        injection e1 with e
        rw [e]
        exact h1
      have h2' : pyInt p2 = some n2 := by
        rw [show (p0 :: p1 :: p2 :: p3 :: rest)[2]? = some p2 from by simp] at e2
        injection e2 with e
        rw [e]
        exact h2
      have h3' : pyInt p3 = some n3 := by
        rw [show (p0 :: p1 :: p2 :: p3 :: rest)[3]? = some p3 from by simp] at e3
        injection e3 with e
        rw [e]
        exact h3
      simp [h0', h1', h2', h3']

theorem claim_C6_amended_witness : ipv4_to_value "0.0.0.256" ≠ none := by
  obtain ⟨v, hv⟩ := (claim_C6_amended "0.0.0.256").mpr (by
    intro i hi
    interval_cases i
    · exact ⟨['0'], by decide, 0, by decide⟩
    · exact ⟨['0'], by decide, 0, by decide⟩
    · exact ⟨['0'], by decide, 0, by decide⟩
    · exact ⟨['2', '5', '6'], by decide, 256, by decide⟩)
  simp [hv]

/-- Claim C6, counterexample — the claim says these two inputs must fail
(five octets; octet out of range 0–255); the code accepts both. -/
theorem claim_C6_counterexample :
    ipv4_to_value "1.2.3.4.5" = some 16909060 ∧ ipv4_to_value "0.0.0.256" = some 256 := by
  constructor <;> decide

/-! ## The subnet-mask table (claim C7) -/

theorem foldl_bin_replicate_one (k : Nat) :
    ∀ a, (List.replicate k '1').foldl (fun x c => 2 * x + digitVal c) a
      = a * 2 ^ k + (2 ^ k - 1) := by
  induction k with
  | zero => intro a; simp
  | succ k ih =>
    intro a
    rw [List.replicate_succ, List.foldl_cons, ih]
    have h2 : (2 : Nat) ^ (k + 1) = 2 * 2 ^ k := by ring
    have h3 : digitVal '1' = 1 := rfl
    obtain ⟨Q, hQ⟩ : ∃ Q, (2 : Nat) ^ k = Q + 1 :=
      ⟨2 ^ k - 1, by have : 1 ≤ (2 : Nat) ^ k := Nat.one_le_two_pow; omega⟩
    rw [h3, h2, hQ]
    have e1 : (Q + 1) - 1 = Q := by omega
    have e2 : 2 * (Q + 1) - 1 = 2 * Q + 1 := by omega
    rw [e1, e2]
    ring

theorem foldl_bin_replicate_zero (k : Nat) :
    ∀ a, (List.replicate k '0').foldl (fun x c => 2 * x + digitVal c) a = a * 2 ^ k := by
  induction k with
  | zero => intro a; simp
  | succ k ih =>
    intro a
    rw [List.replicate_succ, List.foldl_cons, ih]
    have h2 : (2 : Nat) ^ (k + 1) = 2 * 2 ^ k := by ring
    have h3 : digitVal '0' = 0 := rfl
    rw [h3, h2]
    ring

theorem get_subnet_mask_value_parts {s : String} {p0 p : List Char}
    {rest : List (List Char)} (h : pySplit '/' s.data = p0 :: p :: rest) :
    get_subnet_mask_value s = (pyInt p).bind (fun value =>
      (parseBin (List.replicate value.toNat '1'
        ++ List.replicate (32 - value).toNat '0')).bind (fun m => some (m : Int))) := by
  unfold get_subnet_mask_value
  rw [h, show (p0 :: p :: rest)[1]? = some p from by simp]
  show (pyInt p).bind (fun value =>
      (parseBin (List.replicate value.toNat '1'
        ++ List.replicate (32 - value).toNat '0')).bind (fun m => some (m : Int))) = _
  rfl

theorem get_subnet_mask_value_natStr {n : Nat} (hn : n ≤ 32) :
    get_subnet_mask_value (slashStr n) = some (((2 ^ n - 1) * 2 ^ (32 - n) : Nat) : Int) := by
  have hdata : (slashStr n).data = '/' :: natStr n := rfl
  have hsp : pySplit '/' (slashStr n).data = [[], natStr n] := by
    rw [hdata, pySplit_sep_cons,
      pySplit_no_sep (fun x hx => (isDigit_ne (natStr_digits n x hx)).2.2.2.2)]
  rw [get_subnet_mask_value_parts hsp, pyInt_natStr]
  simp only [Option.some_bind]
  have ht : ((n : Int)).toNat = n := by omega
  have ht' : ((32 : Int) - (n : Int)).toNat = 32 - n := by omega
  rw [ht, ht']
  have hne : List.replicate n '1' ++ List.replicate (32 - n) '0' ≠ [] := by
    intro h
    have := congrArg List.length h
    simp at this
    omega
  have hall : (List.replicate n '1' ++ List.replicate (32 - n) '0').all
      (fun c => c = '0' || c = '1') = true := by
    rw [List.all_eq_true]
    intro c hc
    rcases List.mem_append.mp hc with h | h
    · rw [List.eq_of_mem_replicate h]; decide
    · rw [List.eq_of_mem_replicate h]; decide
  unfold parseBin
  rw [if_neg hne, if_pos hall, List.foldl_append, foldl_bin_replicate_one,
    foldl_bin_replicate_zero]
  simp

/-- Claim C7, amended — `get_subnet_mask_value` performs no range check
and can never raise a `FormatError` for a numeric prefix: for
`0 ≤ n ≤ 32` it returns the mask with the top `n` bits set (in
particular the three table entries of the specification), and for the
out-of-range prefix 33 it silently returns `2 ^ 33 - 1` instead of
failing. -/
theorem claim_C7_amended :
    (∀ n : Nat, n ≤ 32 →
      get_subnet_mask_value (slashStr n) = some (((2 ^ n - 1) * 2 ^ (32 - n) : Nat) : Int)) ∧
    get_subnet_mask_value "/24" = some 4294967040 ∧
    get_subnet_mask_value "/0" = some 0 ∧
    get_subnet_mask_value "/32" = some 4294967295 ∧
    get_subnet_mask_value "/33" = some 8589934591 :=
  ⟨fun _ hn => get_subnet_mask_value_natStr hn, by decide, by decide, by decide, by decide⟩

theorem claim_C7_amended_witness :
    get_subnet_mask_value (slashStr 24) = some (((2 ^ 24 - 1) * 2 ^ (32 - 24) : Nat) : Int) :=
  claim_C7_amended.1 24 (by norm_num)

/-- Claim C7, counterexample — the claim requires a `FormatError` for a
prefix length outside 0–32; the code instead succeeds on `"/33"`,
returning `2 ^ 33 - 1`. -/
theorem claim_C7_counterexample :
    get_subnet_mask_value "/33" ≠ none ∧ get_subnet_mask_value "/33" = some 8589934591 := by
  constructor <;> decide

/-! ## Dictionary lookups -/

theorem keys_cons (q : String × Router) (rest : Net) : keys (q :: rest) = q.1 :: keys rest := rfl

theorem lookup_cons_true {α β : Type} [BEq α] {cs : List (α × β)} {nb : α × β} {x : α}
    (hx : (x == nb.1) = true) : (nb :: cs).lookup x = some nb.2 := by
  rw [List.lookup_cons, hx]

theorem lookup_cons_false {α β : Type} [BEq α] {cs : List (α × β)} {nb : α × β} {x : α}
    (hx : (x == nb.1) = false) : (nb :: cs).lookup x = cs.lookup x := by
  rw [List.lookup_cons, hx]

theorem mem_keys_of_lookup {net : Net} {k : String} {rt : Router}
    (h : net.lookup k = some rt) : k ∈ keys net := by
  induction net with
  | nil => cases h
  | cons q rest ih =>
    rw [keys_cons]
    cases hk : k == q.1 with
    | true => exact List.mem_cons.mpr (Or.inl (by simpa using hk))
    | false =>
      rw [lookup_cons_false hk] at h
      exact List.mem_cons_of_mem _ (ih h)

theorem lookup_of_mem_keys {net : Net} {k : String} (h : k ∈ keys net) :
    ∃ rt, net.lookup k = some rt := by
  induction net with
  | nil => simp [keys] at h
  | cons q rest ih =>
    cases hk : k == q.1 with
    | true => exact ⟨q.2, lookup_cons_true hk⟩
    | false =>
      rw [lookup_cons_false hk]
      rw [keys_cons, List.mem_cons] at h
      rcases h with h | h
      · exact absurd (by simpa using h) (by simpa using hk)
      · exact ih h

theorem connsOf_eq {net : Net} {cur : String} {rt : Router}
    (h : net.lookup cur = some rt) : connsOf net cur = rt.connections := by
  unfold connsOf
  rw [h]
  rfl

theorem edgeWeight_eq_conns {net : Net} {cur : String} {rt : Router}
    (h : net.lookup cur = some rt) (b : String) :
    edgeWeight net cur b = (rt.connections.lookup b).map Link.ad := by
  unfold edgeWeight
  rw [h]
  rfl

theorem mem_keys_of_edgeWeight {net : Net} {a b : String} {w : Nat}
    (h : edgeWeight net a b = some w) : a ∈ keys net := by
  unfold edgeWeight at h
  cases hl : net.lookup a with
  | none => rw [hl] at h; cases h
  | some rt => exact mem_keys_of_lookup hl

theorem lookup_mem {α β : Type} [BEq α] [LawfulBEq α] {cs : List (α × β)} {x : α} {lk : β}
    (h : cs.lookup x = some lk) : (x, lk) ∈ cs := by
  induction cs with
  | nil => cases h
  | cons nb cs ih =>
    cases hk : x == nb.1 with
    | true =>
      rw [lookup_cons_true hk] at h
      have hx : x = nb.1 := by simpa using hk
      injection h with e
      rw [List.mem_cons]
      exact Or.inl (by rw [hx, ← e])
    | false =>
      rw [lookup_cons_false hk] at h
      exact List.mem_cons_of_mem _ (ih h)

theorem mem_lookup_of_nodup {cs : List (String × Link)}
    (nd : (cs.map Prod.fst).Nodup) {x : String} {lk : Link}
    (h : (x, lk) ∈ cs) : cs.lookup x = some lk := by
  induction cs with
  | nil => cases h
  | cons nb cs ih =>
    rw [List.map_cons, List.nodup_cons] at nd
    rcases List.mem_cons.mp h with h | h
    · rw [lookup_cons_true (by rw [← h]; simp), ← h]
    · have hx : x ≠ nb.1 := by
        intro e
        exact nd.1 (e ▸ List.mem_map_of_mem Prod.fst h)
      rw [lookup_cons_false (by simpa using hx)]
      exact ih nd.2 h

/-! ## The selection function `min(unvisited, key=...)` -/

theorem minBy_spec (dist : String → ℕ∞) : ∀ (xs : List String) (x : String),
    minBy dist x xs ∈ x :: xs ∧ ∀ y ∈ x :: xs, dist (minBy dist x xs) ≤ dist y := by
  intro xs
  induction xs with
  | nil =>
    intro x
    refine ⟨by simp [minBy], ?_⟩
    intro y hy
    rw [List.mem_singleton.mp hy]
    exact le_refl _
  | cons r rs ih =>
    intro x
    have hstep : minBy dist x (r :: rs) = minBy dist (if dist r < dist x then r else x) rs := rfl
    by_cases hrx : dist r < dist x
    · rw [hstep, if_pos hrx]
      obtain ⟨hmem, hle⟩ := ih r
      constructor
      · rcases List.mem_cons.mp hmem with h | h
        · rw [h]; simp
        · simp [h]
      · intro y hy
        rcases List.mem_cons.mp hy with h | hy2
        · rw [h]
          exact (hle r (by simp)).trans (le_of_lt hrx)
        · exact hle y hy2
    · rw [hstep, if_neg hrx]
      obtain ⟨hmem, hle⟩ := ih x
      constructor
      · rcases List.mem_cons.mp hmem with h | h
        · rw [h]; simp
        · simp [h]
      · intro y hy
        rcases List.mem_cons.mp hy with h | hy2
        · rw [h]
          exact hle x (by simp)
        · rcases List.mem_cons.mp hy2 with h | hy3
          · rw [h]
            exact (hle x (by simp)).trans (le_of_not_lt hrx)
          · exact hle y (List.mem_cons_of_mem _ hy3)

/-! ## The relaxation fold -/

theorem relax_nil (c : String) (u : List String) (dp) : relax c [] u dp = dp := rfl

theorem relax_cons (c : String) (nb : String × Link) (cs : List (String × Link))
    (u : List String) (dp) :
    relax c (nb :: cs) u dp = relax c cs u (relaxStep c u dp nb) := rfl

theorem relaxStep_not_mem {c : String} {u : List String} {dp} {nb : String × Link}
    {x : String} (hx : x ∉ u) :
    (relaxStep c u dp nb).1 x = dp.1 x ∧ (relaxStep c u dp nb).2 x = dp.2 x := by
  simp only [relaxStep]
  by_cases h1 : nb.1 ∈ u
  · rw [if_pos h1]
    by_cases h2 : dp.1 c + (nb.2.ad : ℕ∞) < dp.1 nb.1
    · rw [if_pos h2]
      have hne : x ≠ nb.1 := fun e => hx (e ▸ h1)
      exact ⟨if_neg hne, if_neg hne⟩
    · rw [if_neg h2]
      exact ⟨rfl, rfl⟩
  · rw [if_neg h1]
    exact ⟨rfl, rfl⟩

theorem relaxStep_le {c : String} {u : List String} {dp} {nb : String × Link} {x : String} :
    (relaxStep c u dp nb).1 x ≤ dp.1 x := by
  simp only [relaxStep]
  by_cases h1 : nb.1 ∈ u
  · rw [if_pos h1]
    by_cases h2 : dp.1 c + (nb.2.ad : ℕ∞) < dp.1 nb.1
    · rw [if_pos h2]
      dsimp only
      by_cases hx : x = nb.1
      · rw [if_pos hx, hx]
        exact le_of_lt h2
      · rw [if_neg hx]
    · rw [if_neg h2]
  · rw [if_neg h1]

theorem relaxStep_cases {c : String} {u : List String} {d : String → ℕ∞}
    {p : String → Option String} {nb : String × Link} (x : String) :
    ((relaxStep c u (d, p) nb).1 x = d x ∧ (relaxStep c u (d, p) nb).2 x = p x) ∨
    (x = nb.1 ∧ x ∈ u ∧ (relaxStep c u (d, p) nb).1 x = d c + (nb.2.ad : ℕ∞) ∧
      (relaxStep c u (d, p) nb).2 x = some c ∧ (relaxStep c u (d, p) nb).1 x < d x) := by
  simp only [relaxStep]
  by_cases h1 : nb.1 ∈ u
  · rw [if_pos h1]
    by_cases h2 : d c + (nb.2.ad : ℕ∞) < d nb.1
    · rw [if_pos h2]
      dsimp only
      by_cases hx : x = nb.1
      · refine Or.inr ⟨hx, hx ▸ h1, ?_, ?_, ?_⟩
        · rw [if_pos hx]
        · rw [if_pos hx]
        · rw [if_pos hx, hx]
          exact h2
      · exact Or.inl ⟨if_neg hx, if_neg hx⟩
    · rw [if_neg h2]
      exact Or.inl ⟨rfl, rfl⟩
  · rw [if_neg h1]
    exact Or.inl ⟨rfl, rfl⟩

theorem relax_not_mem {c : String} {u : List String} :
    ∀ (cs : List (String × Link)) (d : String → ℕ∞) (p : String → Option String)
      {x : String}, x ∉ u →
      (relax c cs u (d, p)).1 x = d x ∧ (relax c cs u (d, p)).2 x = p x := by
  intro cs
  induction cs with
  | nil => exact fun d p _ _ => ⟨rfl, rfl⟩
  | cons nb cs ih =>
    intro d p x hx
    rw [relax_cons]
    obtain ⟨h1, h2⟩ := @relaxStep_not_mem c u (d, p) nb x hx
    obtain ⟨h3, h4⟩ := ih (relaxStep c u (d, p) nb).1 (relaxStep c u (d, p) nb).2 hx
    exact ⟨h3.trans h1, h4.trans h2⟩

theorem relax_le {c : String} {u : List String} :
    ∀ (cs : List (String × Link)) (dp) (x : String),
      (relax c cs u dp).1 x ≤ dp.1 x := by
  intro cs
  induction cs with
  | nil => exact fun dp x => le_refl _
  | cons nb cs ih =>
    intro dp x
    rw [relax_cons]
    exact (ih _ x).trans relaxStep_le

theorem relax_cases {c : String} {u : List String} (hcu : c ∉ u) :
    ∀ (cs : List (String × Link)) (d : String → ℕ∞) (p : String → Option String)
      (x : String),
      ((relax c cs u (d, p)).1 x = d x ∧ (relax c cs u (d, p)).2 x = p x) ∨
      (x ∈ u ∧ (relax c cs u (d, p)).2 x = some c ∧
        ∃ lk, (x, lk) ∈ cs ∧ (relax c cs u (d, p)).1 x = d c + (lk.ad : ℕ∞) ∧
          (relax c cs u (d, p)).1 x < d x) := by
  intro cs
  induction cs with
  | nil => exact fun d p x => Or.inl ⟨rfl, rfl⟩
  | cons nb cs ih =>
    intro d p x
    rw [relax_cons]
    have hcd : (relaxStep c u (d, p) nb).1 c = d c := (relaxStep_not_mem hcu).1
    rcases ih (relaxStep c u (d, p) nb).1 (relaxStep c u (d, p) nb).2 x with ⟨h1, h2⟩ | h
    · rcases @relaxStep_cases c u d p nb x with
        ⟨h3, h4⟩ | ⟨hx, hxu, h3, h4, h5⟩
      · exact Or.inl ⟨h1.trans h3, h2.trans h4⟩
      · refine Or.inr ⟨hxu, h2.trans h4, nb.2, ?_, h1.trans h3, ?_⟩
        · rw [List.mem_cons]
          exact Or.inl (by rw [hx])
        · rw [h1]
          exact h5
    · obtain ⟨hxu, h2, lk, hlk, h3, h4⟩ := h
      refine Or.inr ⟨hxu, h2, lk, List.mem_cons_of_mem _ hlk, ?_, ?_⟩
      · rw [h3, hcd]
      · exact lt_of_lt_of_le h4 relaxStep_le

theorem relax_lookup_le {c : String} {u : List String} (hcu : c ∉ u) :
    ∀ (cs : List (String × Link)) (d : String → ℕ∞) (p : String → Option String)
      {x : String} {lk : Link}, x ∈ u → cs.lookup x = some lk →
      (relax c cs u (d, p)).1 x ≤ d c + (lk.ad : ℕ∞) := by
  intro cs
  induction cs with
  | nil => intro d p x lk _ h; cases h
  | cons nb cs ih =>
    intro d p x lk hxu hlk
    rw [relax_cons]
    cases hk : x == nb.1 with
    | true =>
      rw [lookup_cons_true hk] at hlk
      have hx : x = nb.1 := by simpa using hk
      injection hlk with e
      rw [← e]
      have hstep : (relaxStep c u (d, p) nb).1 x ≤ d c + (nb.2.ad : ℕ∞) := by
        simp only [relaxStep]
        rw [if_pos (hx ▸ hxu)]
        by_cases h2 : d c + (nb.2.ad : ℕ∞) < d nb.1
        · rw [if_pos h2]
          dsimp only
          rw [if_pos hx]
        · rw [if_neg h2]
          rw [hx]
          exact le_of_not_lt h2
      calc (relax c cs u (relaxStep c u (d, p) nb)).1 x
          ≤ (relaxStep c u (d, p) nb).1 x := relax_le _ _ _
        _ ≤ d c + (nb.2.ad : ℕ∞) := hstep
    | false =>
      rw [lookup_cons_false hk] at hlk
      have := ih (relaxStep c u (d, p) nb).1 (relaxStep c u (d, p) nb).2 hxu hlk
      rw [(relaxStep_not_mem hcu).1] at this
      exact this

/-! ## Reachability -/

theorem reach_ne_top {net : Net} {src x : String} {w : ℕ∞}
    (h : Reach net src x w) : w ≠ ⊤ := by
  induction h with
  | refl => exact (by simp : (0 : ℕ∞) ≠ ⊤)
  | step _ _ ih => exact WithTop.add_ne_top.mpr ⟨ih, ENat.coe_ne_top _⟩

theorem dist_eq_sInf {net : Net} {src v : String} {dv : ℕ∞}
    (hub : ∀ w, Reach net src v w → dv ≤ w)
    (hlb : dv ≠ ⊤ → Reach net src v dv) :
    dv = sInf {w | Reach net src v w} := by
  by_cases ht : dv = ⊤
  · subst ht
    symm
    rw [sInf_eq_top]
    intro w hw
    exact absurd (top_le_iff.mp (hub w hw)) (reach_ne_top hw)
  · exact le_antisymm (le_sInf fun w hw => hub w hw) (sInf_le (hlb ht))

theorem dist_ne_top_of_reachable {net : Net} {src v : String} {dv : ℕ∞}
    (hub : ∀ w, Reach net src v w → dv ≤ w)
    (hr : Reachable net src v) : dv ≠ ⊤ := by
  obtain ⟨w, hw⟩ := hr
  intro ht
  exact absurd (top_le_iff.mp (ht ▸ hub w hw)) (reach_ne_top hw)

/-! ## The selection lemma: the distance of the extracted minimum is a
lower bound on the weight of every path to it -/

theorem selection_bound {net : Net} {src : String} {uh : String} {ut : List String}
    {d : String → ℕ∞} {p : String → Option String}
    (inv : Inv net src (uh :: ut) d p) :
    ∀ {x : String} {w : ℕ∞}, Reach net src x w →
      (x ∈ uh :: ut → d (minBy d uh ut) ≤ w) ∧
      (x ∉ uh :: ut → x ∈ keys net ∨ x = src → d x ≤ w) := by
  intro x w h
  induction h with
  | refl =>
    constructor
    · intro hm
      exact (inv.src0 ▸ (minBy_spec d ut uh).2 src hm : d (minBy d uh ut) ≤ 0)
    · intro _ _
      rw [inv.src0]
  | @step a b w' wt ha he ih =>
    have hak : a ∈ keys net := mem_keys_of_edgeWeight he
    constructor
    · intro hb
      by_cases hau : a ∈ uh :: ut
      · calc d (minBy d uh ut) ≤ w' := ih.1 hau
          _ ≤ w' + (wt : ℕ∞) := le_self_add
      · have hda : d a ≤ w' := ih.2 hau (Or.inl hak)
        calc d (minBy d uh ut) ≤ d b := (minBy_spec d ut uh).2 b hb
          _ ≤ d a + (wt : ℕ∞) := inv.frontier b hb a hak hau wt he
          _ ≤ w' + (wt : ℕ∞) := add_le_add_right hda _
    · intro hbu hbk
      rcases hbk with hbk | hbs
      · exact inv.final b hbk hbu _ (Reach.step ha he)
      · rw [hbs, inv.src0]
        exact zero_le _

/-! ## One iteration of the loop preserves the invariant -/

theorem Inv_preserved {net : Net} {src : String} {uh : String} {ut : List String}
    {d : String → ℕ∞} {p : String → Option String}
    (wfc : ∀ q ∈ net, ((q : String × Router).2.connections.map Prod.fst).Nodup)
    (inv : Inv net src (uh :: ut) d p) :
    Inv net src ((uh :: ut).erase (minBy d uh ut))
      (relax (minBy d uh ut) (connsOf net (minBy d uh ut))
        ((uh :: ut).erase (minBy d uh ut)) (d, p)).1
      (relax (minBy d uh ut) (connsOf net (minBy d uh ut))
        ((uh :: ut).erase (minBy d uh ut)) (d, p)).2 := by
  set cur := minBy d uh ut with hcur
  set u' := (uh :: ut).erase cur with hu'
  have hcur_mem : cur ∈ uh :: ut := (minBy_spec d ut uh).1
  have hcur_min : ∀ y ∈ uh :: ut, d cur ≤ d y := (minBy_spec d ut uh).2
  have hcu' : cur ∉ u' := fun h => ((inv.unodup.mem_erase_iff).mp h).1 rfl
  have hsub' : ∀ x ∈ u', x ∈ uh :: ut := fun x hx => List.erase_subset _ _ hx
  have hmem_to' : ∀ x, x ∈ uh :: ut → x ≠ cur → x ∈ u' :=
    fun x hx hne => (List.mem_erase_of_ne hne).mpr hx
  have heq_cur : ∀ x, x ∈ uh :: ut → x ∉ u' → x = cur := by
    intro x hx hx'
    by_contra hne
    exact hx' (hmem_to' x hx hne)
  have hcur_keys : cur ∈ keys net := inv.usub cur hcur_mem
  obtain ⟨rt, hrt⟩ := lookup_of_mem_keys hcur_keys
  have hconns : connsOf net cur = rt.connections := connsOf_eq hrt
  have hnd_conns : (rt.connections.map Prod.fst).Nodup := wfc (cur, rt) (lookup_mem hrt)
  set D := (relax cur (connsOf net cur) u' (d, p)).1 with hD
  set P := (relax cur (connsOf net cur) u' (d, p)).2 with hP
  have hnot : ∀ x, x ∉ u' → D x = d x ∧ P x = p x := fun x hx => relax_not_mem _ d p hx
  have hle : ∀ x, D x ≤ d x := fun x => relax_le _ (d, p) x
  have hcases := @relax_cases cur u' hcu' (connsOf net cur) d p
  rw [← hD, ← hP] at hcases
  have hedge_of_mem : ∀ {x : String} {lk : Link}, (x, lk) ∈ connsOf net cur →
      edgeWeight net cur x = some lk.ad := by
    intro x lk hm
    rw [hconns] at hm
    rw [edgeWeight_eq_conns hrt, mem_lookup_of_nodup hnd_conns hm]
    rfl
  have hedge_to_lookup : ∀ {x : String} {wt : Nat}, edgeWeight net cur x = some wt →
      ∃ lk : Link, (connsOf net cur).lookup x = some lk ∧ lk.ad = wt := by
    intro x wt hew
    rw [edgeWeight_eq_conns hrt] at hew
    rcases Option.map_eq_some'.mp hew with ⟨lk, hl, ha⟩
    exact ⟨lk, by rw [hconns]; exact hl, ha⟩
  have hsel : ∀ {w : ℕ∞}, Reach net src cur w → d cur ≤ w :=
    fun h => (selection_bound inv h).1 hcur_mem
  have hDcur : D cur = d cur := (hnot cur hcu').1
  refine ⟨?_, inv.unodup.erase cur, ?_, ?_, ?_, ?_, ?_, ?_, ?_, ?_, ?_, ?_⟩
  · exact fun x hx => inv.usub x (hsub' x hx)
  · exact le_antisymm (inv.src0 ▸ hle src) (zero_le _)
  · intro x hxk hxs
    have hxu : x ∉ u' := fun h => hxk (inv.usub x (hsub' x h))
    rw [(hnot x hxu).1]
    exact inv.notkey x hxk hxs
  · intro x hx
    rcases hcases x with ⟨h1, _⟩ | ⟨hxu, _, lk, hlk, h3, _⟩
    · rw [h1] at hx ⊢
      exact inv.sound x hx
    · rw [h3] at hx ⊢
      have hdc : d cur ≠ ⊤ := fun ht => hx (by rw [ht, top_add])
      exact Reach.step (inv.sound cur hdc) (hedge_of_mem hlk)
  · intro v hvk hvu w hw
    by_cases hvm : v ∈ uh :: ut
    · have hvc : v = cur := heq_cur v hvm hvu
      subst hvc
      rw [hDcur]
      exact hsel hw
    · rw [(hnot v (fun h => hvm (hsub' v h))).1]
      exact inv.final v hvk hvm w hw
  · intro x hx v hvk hvu wt hew
    have hDv : D v = d v := (hnot v hvu).1
    by_cases hvm : v ∈ uh :: ut
    · have hvc : v = cur := heq_cur v hvm hvu
      subst hvc
      obtain ⟨lk, hl, ha⟩ := hedge_to_lookup hew
      rw [hDv, ← ha]
      exact relax_lookup_le hcu' _ d p hx hl
    · rcases hcases x with ⟨h1, _⟩ | ⟨_, _, lk, hlk, h3, h4⟩
      · rw [h1, hDv]
        exact inv.frontier x (hsub' x hx) v hvk hvm wt hew
      · rw [hDv]
        calc D x ≤ d x := hle x
          _ ≤ d v + (wt : ℕ∞) := inv.frontier x (hsub' x hx) v hvk hvm wt hew
  · intro v hvk hvu x hx
    have hDv : D v = d v := (hnot v hvu).1
    have hxm : x ∈ uh :: ut := hsub' x hx
    by_cases hvm : v ∈ uh :: ut
    · have hvc : v = cur := heq_cur v hvm hvu
      subst hvc
      rcases hcases x with ⟨h1, _⟩ | ⟨_, _, lk, hlk, h3, _⟩
      · rw [h1, hDv]
        exact hcur_min x hxm
      · rw [h3, hDv]
        exact le_self_add
    · rcases hcases x with ⟨h1, _⟩ | ⟨_, _, lk, hlk, h3, _⟩
      · rw [h1, hDv]
        exact inv.mono v hvk hvm x hxm
      · rw [h3, hDv]
        calc d v ≤ d cur := inv.mono v hvk hvm cur hcur_mem
          _ ≤ d cur + (lk.ad : ℕ∞) := le_self_add
  · rcases hcases src with ⟨_, h2⟩ | ⟨_, _, lk, hlk, h3, h4⟩
    · rw [h2]
      exact inv.prevSrc
    · rw [inv.src0] at h4
      exact absurd h4 (not_lt.mpr (zero_le _))
  · intro n c hpn
    rcases hcases n with ⟨h1, h2⟩ | ⟨hnu, h2, lk, hlk, h3, h4⟩
    · rw [h2] at hpn
      obtain ⟨hck, hcu, wt, hew, hdn, hdc⟩ := inv.prevInv n c hpn
      have hcu'' : c ∉ u' := fun h => hcu (hsub' c h)
      refine ⟨hck, hcu'', wt, hew, ?_, ?_⟩
      · rw [h1, (hnot c hcu'').1]
        exact hdn
      · rw [(hnot c hcu'').1]
        exact hdc
    · rw [h2] at hpn
      injection hpn with hc
      subst hc
      have hDn_ne : D n ≠ ⊤ := by
        intro ht
        rw [ht] at h4
        exact absurd h4 (not_lt.mpr le_top)
      have hdc : d cur ≠ ⊤ := by
        intro ht
        rw [h3, ht, top_add] at hDn_ne
        exact hDn_ne rfl
      refine ⟨hcur_keys, hcu', lk.ad, hedge_of_mem hlk, ?_, ?_⟩
      · rw [h3, hDcur]
      · rw [hDcur]
        exact hdc
  · intro n hn hpn
    rcases hcases n with ⟨h1, h2⟩ | ⟨_, h2, _⟩
    · rw [h1] at hn
      rw [h2] at hpn
      exact inv.prevNone n hn hpn
    · rw [h2] at hpn
      cases hpn
  · obtain ⟨rk, hrk1, hrk2, hrk3⟩ := inv.rank
    have hlen : (uh :: ut).length ≤ (keys net).length :=
      (inv.unodup.subperm inv.usub).length_le
    have hlen' : u'.length = (uh :: ut).length - 1 := List.length_erase_of_mem hcur_mem
    refine ⟨fun x => if x = cur then (keys net).length - (uh :: ut).length else rk x,
      ?_, ?_, ?_⟩
    · intro x hx
      dsimp only
      rw [if_neg (fun e : x = cur => hcu' (e ▸ hx))]
      exact hrk1 x (hsub' x hx)
    · intro c hck hcu
      dsimp only
      by_cases hcm : c ∈ uh :: ut
      · have hcc : c = cur := heq_cur c hcm hcu
        rw [if_pos hcc, hlen']
        have h1 : 1 ≤ (uh :: ut).length := by simp
        omega
      · rw [if_neg (fun e : c = cur => hcm (e ▸ hcur_mem)), hlen']
        have := hrk2 c hck hcm
        have h1 : 1 ≤ (uh :: ut).length := by simp
        omega
    · intro n c hpn
      dsimp only
      rcases hcases n with ⟨_, h2⟩ | ⟨hnu, h2, _⟩
      · rw [h2] at hpn
        obtain ⟨hck, hcu, _⟩ := inv.prevInv n c hpn
        have hcne : c ≠ cur := fun e => hcu (e ▸ hcur_mem)
        rw [if_neg hcne]
        by_cases hnc : n = cur
        · rw [if_pos hnc]
          exact hrk2 c hck hcu
        · rw [if_neg hnc]
          exact hrk3 n c hpn
      · rw [h2] at hpn
        injection hpn with hc
        subst hc
        have hnne : n ≠ cur := fun e => hcu' (e ▸ hnu)
        rw [if_pos rfl, if_neg hnne, hrk1 n (hsub' n hnu)]
        have h1 : 1 ≤ (uh :: ut).length := by simp
        omega

/-! ## The loop and its invariant -/

theorem dijkstraLoop_zero (net : Net) (dest : Option String) (u d p) :
    dijkstraLoop net dest 0 u d p = (u, d, p) := rfl

theorem dijkstraLoop_nil (net : Net) (dest : Option String) (fuel d p) :
    dijkstraLoop net dest (fuel + 1) [] d p = ([], d, p) := rfl

theorem dijkstraLoop_cons (net : Net) (dest : Option String) (fuel : Nat)
    (uh : String) (ut : List String) (d p) :
    dijkstraLoop net dest (fuel + 1) (uh :: ut) d p =
      if some (minBy d uh ut) = dest then (uh :: ut, d, p)
      else
        dijkstraLoop net dest fuel ((uh :: ut).erase (minBy d uh ut))
          (relax (minBy d uh ut) (connsOf net (minBy d uh ut))
            ((uh :: ut).erase (minBy d uh ut)) (d, p)).1
          (relax (minBy d uh ut) (connsOf net (minBy d uh ut))
            ((uh :: ut).erase (minBy d uh ut)) (d, p)).2 := rfl

theorem Inv_init {net : Net} {src : String} (hnd : (keys net).Nodup) :
    Inv net src (keys net)
      (fun r => if (some r : Option String) = some src then 0 else ⊤) (fun _ => none) := by
  refine ⟨fun x hx => hx, hnd, ?_, ?_, ?_, ?_, ?_, ?_, rfl, ?_, ?_, ?_⟩
  · simp
  · intro x _ hxs
    try dsimp only
    rw [if_neg (by simpa using hxs)]
  · intro x hx
    try dsimp only at hx ⊢
    by_cases hxs : x = src
    · subst hxs
      rw [if_pos rfl]
      exact Reach.refl
    · rw [if_neg (by simpa using hxs)] at hx
      exact absurd rfl hx
  · intro v hv hvn
    exact absurd hv hvn
  · intro x _ v hv hvn
    exact absurd hv hvn
  · intro v hv hvn
    exact absurd hv hvn
  · intro n c h
    cases h
  · intro n hn _
    try dsimp only at hn
    by_cases hxs : n = src
    · exact hxs
    · rw [if_neg (by simpa using hxs)] at hn
      exact absurd rfl hn
  · exact ⟨fun _ => (keys net).length, fun x _ => rfl,
      fun c hc hcn => absurd hc hcn, fun n c h => Option.noConfusion h⟩

theorem dijkstraLoop_inv {net : Net} {src : String} {dest : Option String}
    (wfc : ∀ q ∈ net, ((q : String × Router).2.connections.map Prod.fst).Nodup) :
    ∀ (fuel : Nat) (u : List String) (d : String → ℕ∞) (p : String → Option String),
      Inv net src u d p → u.length ≤ fuel →
      Inv net src (dijkstraLoop net dest fuel u d p).1
        (dijkstraLoop net dest fuel u d p).2.1 (dijkstraLoop net dest fuel u d p).2.2 := by
  intro fuel
  induction fuel with
  | zero =>
    intro u d p hinv _
    rw [dijkstraLoop_zero]
    exact hinv
  | succ fuel ih =>
    intro u d p hinv hlen
    rcases u with _ | ⟨uh, ut⟩
    · rw [dijkstraLoop_nil]
      exact hinv
    · rw [dijkstraLoop_cons]
      by_cases hdest : some (minBy d uh ut) = dest
      · rw [if_pos hdest]
        exact hinv
      · rw [if_neg hdest]
        apply ih
        · exact Inv_preserved wfc hinv
        · rw [List.length_erase_of_mem (minBy_spec d ut uh).1]
          simp only [List.length_cons] at hlen ⊢
          omega

theorem dijkstraLoop_dest {net : Net} {src dst : String}
    (wfc : ∀ q ∈ net, ((q : String × Router).2.connections.map Prod.fst).Nodup) :
    ∀ (fuel : Nat) (u : List String) (d : String → ℕ∞) (p : String → Option String),
      Inv net src u d p → u.length ≤ fuel → dst ∈ u →
      dst ∈ (dijkstraLoop net (some dst) fuel u d p).1 ∧
      (∀ w, Reach net src dst w → (dijkstraLoop net (some dst) fuel u d p).2.1 dst ≤ w) := by
  intro fuel
  induction fuel with
  | zero =>
    intro u d p _ hlen hdst
    rw [List.length_eq_zero.mp (Nat.le_zero.mp hlen)] at hdst
    cases hdst
  | succ fuel ih =>
    intro u d p hinv hlen hdst
    rcases u with _ | ⟨uh, ut⟩
    · cases hdst
    · rw [dijkstraLoop_cons]
      by_cases hdest : some (minBy d uh ut) = some dst
      · rw [if_pos hdest]
        injection hdest with hdd
        subst hdd
        refine ⟨hdst, ?_⟩
        intro w hw
        exact (selection_bound hinv hw).1 (minBy_spec d ut uh).1
      · rw [if_neg hdest]
        apply ih
        · exact Inv_preserved wfc hinv
        · rw [List.length_erase_of_mem (minBy_spec d ut uh).1]
          simp only [List.length_cons] at hlen ⊢
          omega
        · have hne : dst ≠ minBy d uh ut := fun e => hdest (by rw [e])
          exact (List.mem_erase_of_ne hne).mpr hdst

/-! ## The reconstruction walk -/

theorem walkBack_zero (src dest : Option String) (p cur) :
    walkBack src dest p 0 cur = none := rfl

theorem walkBack_succ_none (src dest : Option String) (p fuel) :
    walkBack src dest p (fuel + 1) none = some [] := rfl

theorem walkBack_succ_some (src dest : Option String) (p fuel c) :
    walkBack src dest p (fuel + 1) (some c) =
      if dest = src then some []
      else (walkBack src dest p fuel (p c)).bind (fun rest => some (c :: rest)) := rfl

theorem IsChain_snoc {net : Net} :
    ∀ (l : List String) (a b c : String) (wt : Nat), IsChain net a l →
      (a :: l).getLast? = some c → edgeWeight net c b = some wt →
      IsChain net a (l ++ [b]) := by
  intro l
  induction l with
  | nil =>
    intro a b c wt _ hlast he
    have hac : a = c := by simpa using hlast
    subst hac
    exact ⟨⟨wt, he⟩, trivial⟩
  | cons x xs ih =>
    intro a b c wt hch hlast he
    rw [List.getLast?_cons_cons] at hlast
    exact ⟨hch.1, ih x b c wt hch.2 hlast he⟩

theorem chainWeight_snoc {net : Net} :
    ∀ (l : List String) (a b c : String) (wt : Nat),
      (a :: l).getLast? = some c → edgeWeight net c b = some wt →
      chainWeight net a (l ++ [b]) = chainWeight net a l + (wt : ℕ∞) := by
  intro l
  induction l with
  | nil =>
    intro a b c wt hlast he
    have hac : a = c := by simpa using hlast
    subst hac
    show (match edgeWeight net a b with
      | some wt => (wt : ℕ∞)
      | none => ⊤) + chainWeight net b [] = chainWeight net a [] + (wt : ℕ∞)
    rw [he]
    show (wt : ℕ∞) + 0 = 0 + (wt : ℕ∞)
    rw [add_zero, zero_add]
  | cons x xs ih =>
    intro a b c wt hlast he
    rw [List.getLast?_cons_cons] at hlast
    show (match edgeWeight net a x with
      | some wt => (wt : ℕ∞)
      | none => ⊤) + chainWeight net x (xs ++ [b]) = _
    rw [ih x b c wt hlast he]
    show _ = (match edgeWeight net a x with
      | some wt => (wt : ℕ∞)
      | none => ⊤) + chainWeight net x xs + (wt : ℕ∞)
    rw [add_assoc]

theorem getLast?_snoc {α : Type} (l : List α) (b : α) : (l ++ [b]).getLast? = some b := by
  induction l with
  | nil => rfl
  | cons x xs ih =>
    rw [List.cons_append]
    cases hx : xs ++ [b] with
    | nil => exact absurd hx (by simp)
    | cons y ys =>
      rw [List.getLast?_cons_cons, ← hx, ih]

theorem walkBack_spec {net : Net} {src dst : String} {d : String → ℕ∞}
    {p : String → Option String}
    (hpn : ∀ n, d n ≠ ⊤ → p n = none → n = src)
    (hpi : ∀ n c, p n = some c →
      ∃ wt : Nat, edgeWeight net c n = some wt ∧ d n = d c + (wt : ℕ∞) ∧ d c ≠ ⊤)
    (rk : String → Nat) (hrk : ∀ n c, p n = some c → rk c < rk n)
    (hds : d src = 0) (hne : dst ≠ src) :
    ∀ (fuel : Nat) (n : String), d n ≠ ⊤ → rk n + 2 ≤ fuel →
      ∃ l l', walkBack (some src) (some dst) p fuel (some n) = some l ∧
        l.head? = some n ∧ l.reverse = src :: l' ∧ IsChain net src l' ∧
        (src :: l').getLast? = some n ∧ chainWeight net src l' = d n := by
  intro fuel
  induction fuel with
  | zero =>
    intro n _ h
    omega
  | succ fuel ih =>
    intro n hn hfuel
    rw [walkBack_succ_some, if_neg (by simpa using hne)]
    cases hp : p n with
    | none =>
      have hns : n = src := hpn n hn hp
      subst hns
      rcases fuel with _ | fuel'
      · omega
      · rw [walkBack_succ_none]
        refine ⟨[n], [], rfl, rfl, rfl, trivial, rfl, ?_⟩
        rw [hds]
        rfl
    | some c =>
      obtain ⟨wt, hew, hdn, hdc⟩ := hpi n c hp
      have hrkc : rk c < rk n := hrk n c hp
      obtain ⟨lc, l', hwc, hhead, hrev, hch, hlast, hwt⟩ := ih c hdc (by omega)
      rw [hwc]
      refine ⟨n :: lc, l' ++ [n], rfl, rfl, ?_, ?_, ?_, ?_⟩
      · rw [List.reverse_cons, hrev]
        rfl
      · exact IsChain_snoc l' src n c wt hch hlast hew
      · rw [show src :: (l' ++ [n]) = (src :: l') ++ [n] from rfl]
        exact getLast?_snoc _ n
      · rw [chainWeight_snoc l' src n c wt hlast hew, hwt, hdn]

theorem walkBack_isSome {src dest : Option String} {p : String → Option String}
    (rk : String → Nat) (hrk : ∀ n c, p n = some c → rk c < rk n) :
    ∀ (fuel : Nat) (cur : Option String), 1 ≤ fuel →
      (∀ c, cur = some c → rk c + 2 ≤ fuel) →
      ∃ l, walkBack src dest p fuel cur = some l := by
  intro fuel
  induction fuel with
  | zero =>
    intro cur h _
    omega
  | succ fuel ih =>
    intro cur _ hc
    cases cur with
    | none => exact ⟨[], walkBack_succ_none src dest p fuel⟩
    | some c =>
      rw [walkBack_succ_some]
      by_cases hds : dest = src
      · rw [if_pos hds]
        exact ⟨[], rfl⟩
      · rw [if_neg hds]
        have h1 : rk c + 2 ≤ fuel + 1 := hc c rfl
        obtain ⟨l, hl⟩ := ih (p c) (by omega)
          (fun c' h => by have := hrk c c' h; omega)
        exact ⟨c :: l, by rw [hl]; rfl⟩

theorem engine_post {net : Net} {src dst : String}
    {fs : List String × (String → ℕ∞) × (String → Option String)}
    (wf : WFNet net) (hs : src ∈ keys net) (hd : dst ∈ keys net)
    (hfs : fs = dijkstraLoop net (some dst) (keys net).length (keys net)
      (fun r => if (some r : Option String) = some src then 0 else ⊤) (fun _ => none)) :
    (∀ v ∈ keys net, v ∉ fs.1 → Reachable net src v →
      fs.2.1 v = sInf {w | Reach net src v w}) ∧
    fs.2.1 dst = sInf {w | Reach net src dst w} ∧
    (fs.2.1 dst = ⊤ ↔ ¬ Reachable net src dst) ∧
    (fs.2.1 dst ≠ ⊤ → ∃ l l',
      walkBack (some src) (some dst) fs.2.2 ((keys net).length + 2) (some dst) = some l ∧
      ((dst = src ∧ l = []) ∨ l.reverse = src :: l') ∧
      IsChain net src l' ∧ (src :: l').getLast? = some dst ∧
      chainWeight net src l' = fs.2.1 dst) := by
  obtain ⟨hnd, wfc⟩ := wf
  have hinit := @Inv_init net src hnd
  have hinv := @dijkstraLoop_inv net src (some dst) wfc (keys net).length (keys net) _ _
    hinit (le_refl _)
  have hdest := dijkstraLoop_dest wfc (keys net).length (keys net) _ _ hinit (le_refl _) hd
  rw [← hfs] at hinv hdest
  obtain ⟨hdu, hdb⟩ := hdest
  have hdistdst : fs.2.1 dst = sInf {w | Reach net src dst w} :=
    dist_eq_sInf hdb (fun h => hinv.sound dst h)
  refine ⟨?_, hdistdst, ?_, ?_⟩
  · intro v hv hvu _
    exact dist_eq_sInf (hinv.final v hv hvu) (fun h => hinv.sound v h)
  · constructor
    · intro ht hr
      exact dist_ne_top_of_reachable hdb hr ht
    · intro hnr
      by_contra ht
      exact hnr ⟨_, hinv.sound dst ht⟩
  · intro hdne
    by_cases hds : dst = src
    · subst hds
      refine ⟨[], [], ?_, Or.inl ⟨rfl, rfl⟩, trivial, rfl, ?_⟩
      · rw [show (keys net).length + 2 = ((keys net).length + 1) + 1 from rfl,
          walkBack_succ_some, if_pos rfl]
      · rw [hinv.src0]
        rfl
    · obtain ⟨rk, hrk1, hrk2, hrk3⟩ := hinv.rank
      have hrkd : rk dst + 2 ≤ (keys net).length + 2 := by
        by_cases hdu' : dst ∈ fs.1
        · have := hrk1 dst hdu'
          omega
        · have := hrk2 dst hd hdu'
          omega
      obtain ⟨l, l', hwb, hhead, hrev, hch, hlast, hwt⟩ :=
        walkBack_spec hinv.prevNone (fun n c h => (hinv.prevInv n c h).2.2)
          rk hrk3 hinv.src0 hds ((keys net).length + 2) dst hdne hrkd
      exact ⟨l, l', hwb, Or.inr hrev, hch, hlast, hwt⟩

/-- Claim C2 — The shortest-path engine is correct: at loop exit every
visited router's distance is the minimum path weight from the source,
the destination's distance is the minimum path weight (`⊤` exactly when
the destination is unreachable), and following the predecessor table
backward from the destination yields a path from the source to the
destination whose total weight is that minimum. -/
theorem claim_C2_engine {net : Net} {src dst : String}
    {fs : List String × (String → ℕ∞) × (String → Option String)}
    (wf : WFNet net) (hs : src ∈ keys net) (hd : dst ∈ keys net)
    (hfs : fs = dijkstraLoop net (some dst) (keys net).length (keys net)
      (fun r => if (some r : Option String) = some src then 0 else ⊤) (fun _ => none)) :
    (∀ v ∈ keys net, v ∉ fs.1 → Reachable net src v →
      fs.2.1 v = sInf {w | Reach net src v w}) ∧
    fs.2.1 dst = sInf {w | Reach net src dst w} ∧
    (fs.2.1 dst = ⊤ ↔ ¬ Reachable net src dst) ∧
    (fs.2.1 dst ≠ ⊤ → ∃ l l',
      walkBack (some src) (some dst) fs.2.2 ((keys net).length + 2) (some dst) = some l ∧
      ((dst = src ∧ l = []) ∨ l.reverse = src :: l') ∧
      IsChain net src l' ∧ (src :: l').getLast? = some dst ∧
      chainWeight net src l' = fs.2.1 dst) :=
  engine_post wf hs hd hfs

theorem claim_C2_engine_witness :
    (dijkstraLoop exNet (some "10.0.2.1") (keys exNet).length (keys exNet)
      (fun r => if (some r : Option String) = some "10.0.0.1" then 0 else ⊤)
      (fun _ => none)).2.1 "10.0.2.1" =
      sInf {w | Reach exNet "10.0.0.1" "10.0.2.1" w} :=
  (claim_C2_engine ⟨by decide, by decide⟩ (by decide) (by decide) rfl).2.1

/-! ## Assembling the pipeline -/

theorem dijkstras_eq {net : Net} {src_ip dest_ip : String} {s? d? : Option String}
    (hs : find_router_for_ip net src_ip = some s?)
    (hd : find_router_for_ip net dest_ip = some d?) :
    dijkstras_shortest_path net src_ip dest_ip = get_shortest_path net s? d? := by
  unfold dijkstras_shortest_path
  rw [hs, hd]
  rfl

theorem get_shortest_path_eq (net : Net) (src dest : Option String) :
    get_shortest_path net src dest =
      (walkBack src dest
        (dijkstraLoop net dest (keys net).length (keys net)
          (fun r => if (some r : Option String) = src then 0 else ⊤) (fun _ => none)).2.2
        ((keys net).length + 2) dest).map List.reverse := rfl

/-- Claim C8 — If both host addresses resolve to the same router, the
reconstruction loop breaks immediately and the program returns the
empty route. -/
theorem claim_C8_same_router {net : Net} {src_ip dest_ip : String} {r : String}
    (hs : find_router_for_ip net src_ip = some (some r))
    (hd : find_router_for_ip net dest_ip = some (some r)) :
    dijkstras_shortest_path net src_ip dest_ip = some [] := by
  rw [dijkstras_eq hs hd, get_shortest_path_eq,
    show (keys net).length + 2 = ((keys net).length + 1) + 1 from rfl,
    walkBack_succ_some, if_pos rfl]
  rfl

theorem claim_C8_same_router_witness :
    dijkstras_shortest_path exNet "10.0.0.99" "10.0.0.42" = some [] :=
  @claim_C8_same_router exNet "10.0.0.99" "10.0.0.42" "10.0.0.1" (by decide) (by decide)

/-! ## The router locator on unresolvable addresses -/

theorem find_cons_eq (net : Net) (r : String) (rt : Router) (ip : String) :
    find_router_for_ip ((r, rt) :: net) ip =
      (ips_same_subnet ip r rt.netmask).bind
        (fun b => if b then some (some r) else find_router_for_ip net ip) := rfl

theorem find_none_of_no_match {net : Net} {ip : String}
    (h : ∀ q ∈ net, ips_same_subnet ip (q : String × Router).1 q.2.netmask = some false) :
    find_router_for_ip net ip = some none := by
  induction net with
  | nil => rfl
  | cons q rest ih =>
    rcases q with ⟨r, rt⟩
    rw [find_cons_eq, h (r, rt) (by simp)]
    exact ih (fun q hq => h q (List.mem_cons_of_mem _ hq))

theorem find_mem_keys {net : Net} {ip : String} {r : String}
    (h : find_router_for_ip net ip = some (some r)) : r ∈ keys net := by
  induction net with
  | nil => cases h
  | cons q rest ih =>
    rcases q with ⟨r', rt⟩
    rw [find_cons_eq] at h
    cases hb : ips_same_subnet ip r' rt.netmask with
    | none =>
      rw [hb] at h
      cases h
    | some b =>
      rw [hb] at h
      cases b with
      | false => exact List.mem_cons_of_mem _ (ih h)
      | true =>
        injection h with h1
        injection h1 with h2
        rw [keys_cons, ← h2]
        simp

/-! ## The engine when the source is unresolved: no distance is ever
finite, so nothing relaxes -/

theorem relaxStep_top (c : String) (u : List String) (nb : String × Link) :
    relaxStep c u ((fun _ => (⊤ : ℕ∞)), (fun _ => (none : Option String))) nb
      = ((fun _ => ⊤), (fun _ => none)) := by
  simp only [relaxStep]
  by_cases h1 : nb.1 ∈ u
  · rw [if_pos h1]
    try dsimp only
    rw [if_neg (by simp)]
  · rw [if_neg h1]

theorem relax_top (c : String) (u : List String) :
    ∀ cs, relax c cs u ((fun _ => (⊤ : ℕ∞)), (fun _ => (none : Option String)))
      = ((fun _ => ⊤), (fun _ => none)) := by
  intro cs
  induction cs with
  | nil => rfl
  | cons nb cs ih =>
    rw [relax_cons, relaxStep_top]
    exact ih

theorem dijkstraLoop_top (net : Net) (dest : Option String) :
    ∀ (fuel : Nat) (u : List String),
      (dijkstraLoop net dest fuel u (fun _ => (⊤ : ℕ∞)) (fun _ => none)).2.1 = (fun _ => ⊤) ∧
      (dijkstraLoop net dest fuel u (fun _ => (⊤ : ℕ∞)) (fun _ => none)).2.2
        = (fun _ => none) := by
  intro fuel
  induction fuel with
  | zero => exact fun u => ⟨rfl, rfl⟩
  | succ fuel ih =>
    intro u
    rcases u with _ | ⟨uh, ut⟩
    · exact ⟨rfl, rfl⟩
    · rw [dijkstraLoop_cons]
      by_cases hdest : some (minBy (fun _ => ⊤) uh ut) = dest
      · rw [if_pos hdest]
        exact ⟨rfl, rfl⟩
      · rw [if_neg hdest, relax_top]
        exact ih _

theorem get_shortest_path_none_dest (net : Net) (s? : Option String) :
    get_shortest_path net s? none = some [] := by
  rw [get_shortest_path_eq,
    show (keys net).length + 2 = ((keys net).length + 1) + 1 from rfl,
    walkBack_succ_none]
  rfl

theorem get_shortest_path_none_src (net : Net) (dr : String) :
    get_shortest_path net none (some dr) = some [dr] := by
  rw [get_shortest_path_eq]
  have hd0 : (fun r => if (some r : Option String) = none then (0 : ℕ∞) else ⊤)
      = (fun _ => ⊤) := funext fun r => if_neg (by simp)
  rw [hd0, (dijkstraLoop_top net (some dr) (keys net).length (keys net)).2,
    show (keys net).length + 2 = ((keys net).length + 1) + 1 from rfl,
    walkBack_succ_some, if_neg (by simp), walkBack_succ_none]
  rfl

/-- Claim C4, amended — when no router's subnet contains an address the
locator returns `None` (no `NotFoundError` exists in the code) and the
path search proceeds anyway: with an unresolved destination the program
returns the empty route, and with an unresolved source but a resolved
destination it returns the one-element route `[destination router]`. -/
theorem claim_C4_amended :
    (∀ (net : Net) (ip : String),
      (∀ q ∈ net, ips_same_subnet ip (q : String × Router).1 q.2.netmask = some false) →
      find_router_for_ip net ip = some none) ∧
    (∀ (net : Net) (src_ip dest_ip : String) (s? : Option String),
      find_router_for_ip net src_ip = some s? →
      find_router_for_ip net dest_ip = some none →
      dijkstras_shortest_path net src_ip dest_ip = some []) ∧
    (∀ (net : Net) (src_ip dest_ip : String) (dr : String),
      find_router_for_ip net src_ip = some none →
      find_router_for_ip net dest_ip = some (some dr) →
      dijkstras_shortest_path net src_ip dest_ip = some [dr]) := by
  refine ⟨fun net ip h => find_none_of_no_match h, ?_, ?_⟩
  · intro net src_ip dest_ip s? hs hd
    rw [dijkstras_eq hs hd]
    exact get_shortest_path_none_dest net s?
  · intro net src_ip dest_ip dr hs hd
    rw [dijkstras_eq hs hd]
    exact get_shortest_path_none_src net dr

theorem claim_C4_amended_witness :
    dijkstras_shortest_path exNet "9.9.9.9" "10.0.2.99" = some ["10.0.2.1"] :=
  claim_C4_amended.2.2 exNet "9.9.9.9" "10.0.2.99" "10.0.2.1" (by decide) (by decide)

/-- Claim C4, counterexample — for a host address in no router's subnet
the locator returns `None` rather than failing, and the path search
proceeds with the undefined router: with an unresolved source it
silently fabricates the route `[destination router]`, and with an
unresolved destination it returns the empty route — no `NotFoundError`
is reported in either direction. -/
theorem claim_C4_counterexample :
    find_router_for_ip exNet "9.9.9.9" = some none ∧
    dijkstras_shortest_path exNet "9.9.9.9" "10.0.2.99" = some ["10.0.2.1"] ∧
    dijkstras_shortest_path exNet "10.0.0.99" "9.9.9.9" = some [] := by
  refine ⟨by decide, by decide, by decide⟩

/-! ## Unreachable destinations (claim C3) -/

theorem get_shortest_path_unreachable {net : Net} {s t : String}
    (wf : WFNet net) (hst : t ≠ s) (hur : ¬ Reachable net s t) :
    get_shortest_path net (some s) (some t) = some [t] := by
  obtain ⟨hnd, wfc⟩ := wf
  have hinv := @dijkstraLoop_inv net s (some t) wfc (keys net).length (keys net) _ _
    (@Inv_init net s hnd) (le_refl _)
  have hdt : (dijkstraLoop net (some t) (keys net).length (keys net)
      (fun r => if (some r : Option String) = some s then 0 else ⊤) (fun _ => none)).2.1 t
      = ⊤ := by
    by_contra h
    exact hur ⟨_, hinv.sound t h⟩
  have hpt : (dijkstraLoop net (some t) (keys net).length (keys net)
      (fun r => if (some r : Option String) = some s then 0 else ⊤) (fun _ => none)).2.2 t
      = none := by
    cases hp : (dijkstraLoop net (some t) (keys net).length (keys net)
        (fun r => if (some r : Option String) = some s then 0 else ⊤) (fun _ => none)).2.2 t with
    | none => rfl
    | some c =>
      obtain ⟨_, _, wt, _, hdn, hdc⟩ := hinv.prevInv t c hp
      rw [hdt] at hdn
      exact absurd hdn.symm (WithTop.add_ne_top.mpr ⟨hdc, ENat.coe_ne_top _⟩)
  rw [get_shortest_path_eq,
    show (keys net).length + 2 = ((keys net).length + 1) + 1 from rfl,
    walkBack_succ_some, if_neg (by simpa using hst), hpt, walkBack_succ_none]
  rfl

/-- Claim C3, amended — for a destination router disconnected from the
source router, the program does not report an explicit Unreachable
outcome: `previous[destination]` is still `None`, so the reconstruction
returns the one-element route `[destination router]` — a false-positive
path (though distinct from the same-router empty route). -/
theorem claim_C3_amended {net : Net} {src_ip dest_ip : String} {s t : String}
    (wf : WFNet net)
    (hs : find_router_for_ip net src_ip = some (some s))
    (hd : find_router_for_ip net dest_ip = some (some t))
    (hst : t ≠ s) (hur : ¬ Reachable net s t) :
    dijkstras_shortest_path net src_ip dest_ip = some [t] := by
  rw [dijkstras_eq hs hd]
  exact get_shortest_path_unreachable wf hst hur

theorem discNet_no_edge (a b : String) (wt : Nat) : edgeWeight discNet a b ≠ some wt := by
  intro h
  cases hl : List.lookup a discNet with
  | none =>
    unfold edgeWeight at h
    rw [hl] at h
    cases h
  | some rt =>
    rw [edgeWeight_eq_conns hl] at h
    have hm := lookup_mem hl
    have hc : rt.connections = [] := by
      simp only [discNet, List.mem_cons, List.not_mem_nil, or_false] at hm
      rcases hm with he | he
      · have h2 : rt = ⟨[], "/24"⟩ := congrArg Prod.snd he
        rw [h2]
      · have h2 : rt = ⟨[], "/24"⟩ := congrArg Prod.snd he
        rw [h2]
    rw [hc] at h
    cases h

theorem discNet_unreachable : ¬ Reachable discNet "10.0.0.1" "10.1.0.1" := by
  rintro ⟨w, hw⟩
  have hself : ∀ (x : String) (w : ℕ∞), Reach discNet "10.0.0.1" x w → x = "10.0.0.1" := by
    intro x w h
    induction h with
    | refl => rfl
    | step ha he ih => exact absurd he (discNet_no_edge _ _ _)
  exact absurd (hself _ _ hw) (by decide)

theorem claim_C3_amended_witness :
    dijkstras_shortest_path discNet "10.0.0.7" "10.1.0.7" = some ["10.1.0.1"] :=
  claim_C3_amended ⟨by decide, by decide⟩ (by decide) (by decide) (by decide)
    discNet_unreachable

/-- Claim C3, counterexample — on the two-component network the program
returns the ordinary (false-positive) route `["10.1.0.1"]` for a pair
of hosts in different components: there is no explicit no-route
outcome, the result has the same shape as a found path. -/
theorem claim_C3_counterexample :
    dijkstras_shortest_path discNet "10.0.0.7" "10.1.0.7" = some ["10.1.0.1"] ∧
    (some ["10.1.0.1"] : Option (List String)) ≠ some [] := ⟨by decide, by decide⟩

/-! ## Reachable destinations: the returned route starts at the source
router and ends at the destination router (claim C1) -/

theorem get_shortest_path_reachable {net : Net} {s t : String}
    (wf : WFNet net) (hs : s ∈ keys net) (ht : t ∈ keys net) (hst : t ≠ s)
    (hr : Reachable net s t) :
    ∃ l' : List String, get_shortest_path net (some s) (some t) = some (s :: l') ∧
      (s :: l').getLast? = some t ∧ IsChain net s l' := by
  obtain ⟨hall, hdst, htop, hwalk⟩ := engine_post wf hs ht rfl
  have hdne : (dijkstraLoop net (some t) (keys net).length (keys net)
      (fun r => if (some r : Option String) = some s then 0 else ⊤) (fun _ => none)).2.1 t
      ≠ ⊤ := fun h => (htop.mp h) hr
  obtain ⟨l, l', hwb, hdisj, hch, hlast, _⟩ := hwalk hdne
  rcases hdisj with ⟨hts, _⟩ | hrev
  · exact absurd hts hst
  · refine ⟨l', ?_, hlast, hch⟩
    rw [get_shortest_path_eq, hwb]
    simp only [Option.map_some']
    rw [hrev]

/-- Claim C1, amended — whenever the two host addresses resolve to
distinct connected routers, the returned route contains **both** the
source router (as its first element, contrary to the claim that it is
excluded) and the destination router; on the specification's
three-router example the route is `[A, B, C]`, not `[B, C]`. -/
theorem claim_C1_amended :
    (∀ (net : Net) (src_ip dest_ip : String) (s t : String),
      WFNet net →
      find_router_for_ip net src_ip = some (some s) →
      find_router_for_ip net dest_ip = some (some t) →
      t ≠ s → Reachable net s t →
      ∃ l, dijkstras_shortest_path net src_ip dest_ip = some l ∧
        l.head? = some s ∧ t ∈ l) ∧
    dijkstras_shortest_path exNet "10.0.0.99" "10.0.2.99"
      = some ["10.0.0.1", "10.0.1.1", "10.0.2.1"] := by
  constructor
  · intro net src_ip dest_ip s t wf hfs hfd hst hr
    obtain ⟨l', hgsp, hlast, _⟩ :=
      get_shortest_path_reachable wf (find_mem_keys hfs) (find_mem_keys hfd) hst hr
    refine ⟨s :: l', ?_, rfl, List.mem_of_getLast?_eq_some hlast⟩
    rw [dijkstras_eq hfs hfd]
    exact hgsp
  · decide

theorem claim_C1_amended_witness :
    ∃ l, dijkstras_shortest_path exNet "10.0.0.99" "10.0.2.99" = some l ∧
      l.head? = some "10.0.0.1" ∧ "10.0.2.1" ∈ l :=
  claim_C1_amended.1 exNet "10.0.0.99" "10.0.2.99" "10.0.0.1" "10.0.2.1"
    ⟨by decide, by decide⟩ (by decide) (by decide) (by decide)
    ⟨_, Reach.step Reach.refl (by decide : edgeWeight exNet "10.0.0.1" "10.0.2.1" = some 20)⟩

/-- Claim C1, counterexample — on the specification's own example the
route returned for hosts served by `A` and `C` is `[A, B, C]`: the
source router is **included**, so the claimed result `[B, C]` is wrong. -/
theorem claim_C1_counterexample :
    dijkstras_shortest_path exNet "10.0.0.99" "10.0.2.99"
      = some ["10.0.0.1", "10.0.1.1", "10.0.2.1"] ∧
    dijkstras_shortest_path exNet "10.0.0.99" "10.0.2.99"
      ≠ some ["10.0.1.1", "10.0.2.1"] := ⟨by decide, by decide⟩

/-! ## The network is never modified (claim C9) -/

theorem find_st_eq (net : Net) (ip : String) :
    find_router_for_ip_st net ip = (find_router_for_ip net ip, net) := by
  induction net with
  | nil => rfl
  | cons q rest ih =>
    rcases q with ⟨r, rt⟩
    cases hb : ips_same_subnet ip r rt.netmask with
    | none =>
      simp only [find_router_for_ip_st, hb]
      rw [find_cons_eq, hb]
      rfl
    | some b =>
      cases b with
      | true =>
        simp only [find_router_for_ip_st, hb]
        rw [find_cons_eq, hb]
        rfl
      | false =>
        simp only [find_router_for_ip_st, hb, ih]
        rw [find_cons_eq, hb]
        rfl

theorem dijkstraLoop_st_cons (net : Net) (dest : Option String) (fuel : Nat)
    (uh : String) (ut : List String) (d p) :
    dijkstraLoop_st dest (fuel + 1) net (uh :: ut) d p =
      if some (minBy d uh ut) = dest then (net, uh :: ut, d, p)
      else
        dijkstraLoop_st dest fuel net ((uh :: ut).erase (minBy d uh ut))
          (relax (minBy d uh ut) (connsOf net (minBy d uh ut))
            ((uh :: ut).erase (minBy d uh ut)) (d, p)).1
          (relax (minBy d uh ut) (connsOf net (minBy d uh ut))
            ((uh :: ut).erase (minBy d uh ut)) (d, p)).2 := rfl

theorem dijkstraLoop_st_eq (net : Net) (dest : Option String) :
    ∀ (fuel : Nat) (u : List String) (d : String → ℕ∞) (p : String → Option String),
      dijkstraLoop_st dest fuel net u d p = (net, dijkstraLoop net dest fuel u d p) := by
  intro fuel
  induction fuel with
  | zero => exact fun u d p => rfl
  | succ fuel ih =>
    intro u d p
    rcases u with _ | ⟨uh, ut⟩
    · rfl
    · rw [dijkstraLoop_st_cons, dijkstraLoop_cons]
      by_cases hdest : some (minBy d uh ut) = dest
      · rw [if_pos hdest, if_pos hdest]
      · rw [if_neg hdest, if_neg hdest, ih]

theorem get_shortest_path_st_eq (net : Net) (src dest : Option String) :
    get_shortest_path_st net src dest = (get_shortest_path net src dest, net) := by
  unfold get_shortest_path_st
  dsimp only
  rw [dijkstraLoop_st_eq]
  rfl

theorem dijkstras_st_eq (net : Net) (src_ip dest_ip : String) :
    dijkstras_shortest_path_st net src_ip dest_ip
      = (dijkstras_shortest_path net src_ip dest_ip, net) := by
  unfold dijkstras_shortest_path_st dijkstras_shortest_path
  rw [find_st_eq]
  cases hs : find_router_for_ip net src_ip with
  | none => rfl
  | some s? =>
    dsimp only
    rw [find_st_eq]
    cases hd : find_router_for_ip net dest_ip with
    | none => rfl
    | some d? =>
      dsimp only
      rw [get_shortest_path_st_eq]
      rfl

/-- Claim C9 — the routers mapping threaded through every phase of the
computation comes back unchanged, so repeated calls on the returned
network give the same answer as the first call, and the threaded
pipeline computes exactly the plain pipeline's result. -/
theorem claim_C9_immutable (net : Net) (src_ip dest_ip : String) :
    (dijkstras_shortest_path_st net src_ip dest_ip).2 = net ∧
    dijkstras_shortest_path_st ((dijkstras_shortest_path_st net src_ip dest_ip).2)
      src_ip dest_ip = dijkstras_shortest_path_st net src_ip dest_ip ∧
    (dijkstras_shortest_path_st net src_ip dest_ip).1
      = dijkstras_shortest_path net src_ip dest_ip := by
  rw [dijkstras_st_eq]
  exact ⟨rfl, by rw [dijkstras_st_eq], rfl⟩

/-! ## Termination and absence of exceptions (claim C10) -/

theorem ips_same_subnet_isSome {ip r nm : String}
    (h1 : ipv4_to_value ip ≠ none) (h2 : ipv4_to_value r ≠ none)
    (h3 : get_subnet_mask_value nm ≠ none) :
    ∃ b, ips_same_subnet ip r nm = some b := by
  obtain ⟨v1, hv1⟩ := Option.ne_none_iff_exists'.mp h1
  obtain ⟨v2, hv2⟩ := Option.ne_none_iff_exists'.mp h2
  obtain ⟨m, hm⟩ := Option.ne_none_iff_exists'.mp h3
  refine ⟨decide (Int.land v1 m = Int.land v2 m), ?_⟩
  unfold ips_same_subnet
  rw [hv1, hv2, hm]
  rfl

theorem find_isSome {net : Net} {ip : String}
    (hip : ipv4_to_value ip ≠ none)
    (hkeys : ∀ q ∈ net, ipv4_to_value (q : String × Router).1 ≠ none)
    (hmasks : ∀ q ∈ net, get_subnet_mask_value (q : String × Router).2.netmask ≠ none) :
    ∃ s?, find_router_for_ip net ip = some s? := by
  induction net with
  | nil => exact ⟨none, rfl⟩
  | cons q rest ih =>
    rcases q with ⟨r, rt⟩
    obtain ⟨b, hb⟩ := ips_same_subnet_isSome hip (hkeys (r, rt) (by simp))
      (hmasks (r, rt) (by simp))
    rw [find_cons_eq, hb]
    cases b with
    | true => exact ⟨some r, rfl⟩
    | false =>
      obtain ⟨s?, hs⟩ := ih (fun q hq => hkeys q (List.mem_cons_of_mem _ hq))
        (fun q hq => hmasks q (List.mem_cons_of_mem _ hq))
      exact ⟨s?, hs⟩

theorem get_shortest_path_isSome {net : Net} (wf : WFNet net) :
    ∀ (s? d? : Option String), (∀ dr, d? = some dr → dr ∈ keys net) →
      ∃ l, get_shortest_path net s? d? = some l := by
  intro s? d? hd?
  cases d? with
  | none => exact ⟨[], get_shortest_path_none_dest net s?⟩
  | some dr =>
    cases s? with
    | none => exact ⟨[dr], get_shortest_path_none_src net dr⟩
    | some s =>
      obtain ⟨hnd, wfc⟩ := wf
      have hinv := @dijkstraLoop_inv net s (some dr) wfc (keys net).length
        (keys net) _ _ (@Inv_init net s hnd) (le_refl _)
      obtain ⟨rk, hrk1, hrk2, hrk3⟩ := hinv.rank
      have hdr : dr ∈ keys net := hd? dr rfl
      have hbound : rk dr + 2 ≤ (keys net).length + 2 := by
        by_cases h : dr ∈ (dijkstraLoop net (some dr) (keys net).length (keys net)
            (fun r => if (some r : Option String) = some s then 0 else ⊤) (fun _ => none)).1
        · have := hrk1 dr h
          omega
        · have := hrk2 dr hdr h
          omega
      obtain ⟨l, hl⟩ := walkBack_isSome rk hrk3 ((keys net).length + 2) (some dr)
        (by omega) (fun c hc => by injection hc with e; rw [← e]; exact hbound)
      exact ⟨l.reverse, by rw [get_shortest_path_eq, hl]; rfl⟩

/-- Claim C10 — on any well-formed network whose router addresses and
netmasks parse, and for host addresses in parseable dotted-quad form,
the whole pipeline terminates and returns a list without raising: the
loop removes one router per iteration or breaks, and the predecessor
chains are acyclic (certified by the rank function carried in the loop
invariant), so the backward walk finishes within `|routers| + 2`
steps. -/
theorem claim_C10_total {net : Net} {src_ip dest_ip : String}
    (wf : WFNet net)
    (hkeys : ∀ q ∈ net, ipv4_to_value (q : String × Router).1 ≠ none)
    (hmasks : ∀ q ∈ net, get_subnet_mask_value (q : String × Router).2.netmask ≠ none)
    (hsrc : ipv4_to_value src_ip ≠ none) (hdst : ipv4_to_value dest_ip ≠ none) :
    ∃ l, dijkstras_shortest_path net src_ip dest_ip = some l := by
  obtain ⟨s?, hs⟩ := find_isSome hsrc hkeys hmasks
  obtain ⟨d?, hd⟩ := find_isSome hdst hkeys hmasks
  obtain ⟨l, hl⟩ := get_shortest_path_isSome wf s? d?
    (fun dr h => find_mem_keys (h ▸ hd))
  exact ⟨l, by rw [dijkstras_eq hs hd, hl]⟩

theorem claim_C10_total_witness :
    ∃ l, dijkstras_shortest_path exNet "10.0.0.99" "9.9.9.9" = some l :=
  claim_C10_total ⟨by decide, by decide⟩ (by decide) (by decide) (by decide) (by decide)

end Dijkstra
